import Mathlib

/-!
# Verification of the claude-code.graph structural-graph engine

Shallow embedding of the graph query engine (`src/graph/GraphService.js`),
the tool wrapper (`src/graph/GraphTool.js`) and the clusterer
(`GraphClustering` in `src/graph/GraphAwareToolSelector.js`), together with
theorems settling the frozen specification claims.

Conventions of the embedding:
* JavaScript strings are Lean `String`; all string operations are defined
  over `String.data` character lists so that they compute by kernel
  reduction.
* JavaScript numbers that carry fractional values (confidences, community
  scores, the Louvain resolution) are `ℚ`; integer-valued quantities are
  `Nat` (or `Int` where JS subtraction can go negative).
* JS `Set` / `Map` objects are insertion-ordered lists without duplicate
  keys; `setAdd` / map-update helpers reproduce the insertion-order
  semantics.
* Unbounded JS loops (the BFS `while` loop, the recursive DFS walks) are
  embedded with an explicit fuel argument; the fuel passed by the public
  entry points is an upper bound on the number of iterations the JS loop
  can perform, so the embedded run is the complete run.  Where fuel could
  matter the theorems either hold for every fuel value or a sufficiency
  lemma is proved.
* A JS `TypeError` (reading a property of `undefined`, calling a missing
  method) is modelled by `Option`/`Except` error results.
-/

namespace CCG

/-! ## JS string primitives -/

/-- Substring test on character lists, used to model
`String.prototype.includes`. -/
def containsSeq (needle : List Char) : List Char → Bool
  | [] => needle.isEmpty
  | c :: t => needle.isPrefixOf (c :: t) || containsSeq needle t

/-- JS `s.includes(sub)`. -/
def jsIncludes (s sub : String) : Bool := containsSeq sub.data s.data

/-- JS `s.endsWith(suf)`. -/
def jsEndsWith (s suf : String) : Bool := List.isSuffixOf suf.data s.data

/-- JS string truthiness: every string except `""` is truthy. -/
def jsTruthy (s : String) : Bool := !(s == "")

/-- JS `a || b` for an optional string `a` (`undefined` and `""` are falsy). -/
def jsOrElse (o : Option String) (fallback : String) : String :=
  match o with
  | some s => if jsTruthy s then s else fallback
  | none => fallback

/-- JS `String.prototype.split` on a single separator character
(`split` always yields at least one piece). -/
def splitOnChar (c : Char) : List Char → List (List Char)
  | [] => [[]]
  | x :: xs =>
    let r := splitOnChar c xs
    if x = c then [] :: r
    else
      match r with
      | [] => [[x]]
      | h :: t => (x :: h) :: t

/-- JS `Math.ceil(a / b)` for natural `a` and positive natural `b`. -/
def jsCeilDiv (a b : Nat) : Nat := (a + b - 1) / b

/-! ## Graph store (`graphlib` as used by `GraphService`)

`GraphService.parseJsonGraph` builds a directed `graphlib` graph.  A node
is a key plus an optional label (graphlib auto-creates unlabelled nodes
for edge endpoints that were never `setNode`d); an edge is an ordered pair
of keys plus a label. -/

/-- A graphlib node label as produced by the parsers
(`type`/`file`/`line`/`name`/`label` fields; absent fields are `none`). -/
structure NodeData where
  type : String
  file : Option String := none
  name : Option String := none
  line : Option Nat := none
  label : Option String := none
  deriving Repr, DecidableEq

/-- A graphlib edge label (`{type, weight}`). -/
structure EdgeData where
  type : String
  weight : Nat := 1
  deriving Repr, DecidableEq

/-- A directed edge `v → w` with its label. -/
structure Edge where
  v : String
  w : String
  data : EdgeData
  deriving Repr, DecidableEq

/-- A directed graphlib graph: insertion-ordered node list (key ↦ optional
label) and insertion-ordered edge list. -/
structure Graph where
  nodes : List (String × Option NodeData) := []
  edges : List Edge := []
  deriving Repr, DecidableEq

/-- graphlib: ensure a node key exists (auto-created with no label). -/
def ensureNode (g : Graph) (id : String) : Graph :=
  if (g.nodes.find? (fun p => p.fst == id)).isSome then g
  else { g with nodes := g.nodes ++ [(id, none)] }

/-- graphlib `setNode`: insert or overwrite a node label. -/
def setNode (g : Graph) (id : String) (d : NodeData) : Graph :=
  if (g.nodes.find? (fun p => p.fst == id)).isSome then
    { g with nodes := g.nodes.map (fun p => if p.fst == id then (id, some d) else p) }
  else { g with nodes := g.nodes ++ [(id, some d)] }

/-- graphlib `setEdge`: auto-create endpoints, insert or overwrite the
edge `(v, w)`. -/
def setEdge (g : Graph) (v w : String) (d : EdgeData) : Graph :=
  let g1 := ensureNode (ensureNode g v) w
  if (g1.edges.find? (fun e => e.v == v && e.w == w)).isSome then
    { g1 with edges := g1.edges.map (fun e =>
        if e.v == v && e.w == w then { v := v, w := w, data := d } else e) }
  else { g1 with edges := g1.edges ++ [{ v := v, w := w, data := d }] }

/-- graphlib `graph.node(id)`: the label of `id`, `undefined` (`none`) when
the node is absent or unlabelled. -/
def jsNode (g : Graph) (id : String) : Option NodeData :=
  ((g.nodes.find? (fun p => p.fst == id)).map Prod.snd).getD none

/-- graphlib `graph.outEdges(id)` (insertion order). -/
def outEdges (g : Graph) (id : String) : List Edge :=
  g.edges.filter (fun e => e.v == id)

/-- graphlib `graph.inEdges(id)` (insertion order). -/
def inEdges (g : Graph) (id : String) : List Edge :=
  g.edges.filter (fun e => e.w == id)

/-- `GraphService.parseJsonGraph`, Madge branch (lines 113–125): each key of
the JSON object becomes a `module` node, each dependency becomes a `module`
node and an `import` edge of weight 1. -/
def parseJsonGraphMadge (data : List (String × List String)) : Graph :=
  data.foldl (fun g p =>
    let g1 := setNode g p.fst { type := "module", file := some p.fst }
    p.snd.foldl (fun g2 dep =>
      let g3 := setNode g2 dep { type := "module", file := some dep }
      setEdge g3 p.fst dep { type := "import", weight := 1 }) g1) {}

/-! ## `GraphService.findRelatedFiles` (lines 188–275) -/

/-- An element of the BFS work queue (`{file, depth, relation}`). -/
structure QItem where
  file : String
  depth : Nat
  relation : String
  deriving Repr, DecidableEq

/-- The options object of `GraphService.findRelatedFiles` with its default
values (lines 189–193). -/
structure RelOptions where
  maxDepth : Nat := 3
  relationTypes : List String := ["imports", "calls", "inheritance"]
  includeReverse : Bool := true

/-- A result entry of `findRelatedFiles`
(`{path, relationship, depth, confidence}`). -/
structure Entry where
  path : String
  relationship : String
  depth : Nat
  confidence : ℚ
  deriving Repr, DecidableEq

/-- The confidence formula of line 215: `Math.max(0.1, 1 - depth * 0.2)`. -/
def jsConf (depth : Nat) : ℚ := max 0.1 (1 - (depth : ℚ) * 0.2)

/-- The node-matching test of `findDirectlyRelated` (lines 236–241):
`nodeData.file === file || nodeData.file?.endsWith(file) ||
file.endsWith(nodeData.file || '')`. -/
def nodeMatchesFile (d : NodeData) (file : String) : Bool :=
  d.file == some file ||
    (match d.file with | some f => jsEndsWith f file | none => false) ||
    jsEndsWith file (jsOrElse d.file "")

/-- `GraphService.findDirectlyRelated` (lines 233–275): the queue items a
single graph contributes for `file` at depth `nextDepth`.  Returns `none`
for the JS `TypeError` that occurs when a traversed edge endpoint has no
node label (`targetNode.file` / `sourceNode.file` on `undefined`). -/
def findDirectlyRelated (g : Graph) (file : String) (nextDepth : Nat)
    (relationTypes : List String) (includeReverse : Bool) : Option (List QItem) :=
  let matching := g.nodes.filter (fun p =>
    match p.snd with
    | some d => nodeMatchesFile d file
    | none => false)
  matching.foldlM (fun acc p => do
    let nodeId := p.fst
    let outs ← (outEdges g nodeId).foldlM (fun acc2 e =>
      if relationTypes.contains e.data.type then
        match jsNode g e.w with
        | some d => some (acc2 ++ [⟨jsOrElse d.file e.w, nextDepth, e.data.type⟩])
        | none => none
      else some acc2) ([] : List QItem)
    let ins ← (if includeReverse then
      (inEdges g nodeId).foldlM (fun acc2 e =>
        if relationTypes.contains e.data.type then
          match jsNode g e.v with
          | some d => some (acc2 ++ [⟨jsOrElse d.file e.v, nextDepth, "reverse_" ++ e.data.type⟩])
          | none => none
        else some acc2) ([] : List QItem)
      else some [])
    some (acc ++ outs ++ ins)) ([] : List QItem)

/-- A graph service: the `language → graph` map of `GraphService.graphs`
in insertion order. -/
abbrev Service := List (String × Graph)

/-- The BFS `while` loop of `findRelatedFiles` (lines 204–223), with
explicit fuel.  Each iteration pops one queue item; an unvisited item
within depth is recorded (depth > 0) and expanded through every graph. -/
def bfsLoop (svc : Service) (opts : RelOptions) :
    Nat → List QItem → List String → List Entry → Option (List Entry)
  | 0, _, _, _ => none
  | _ + 1, [], _, related => some related
  | fuel + 1, item :: rest, visited, related =>
    if visited.contains item.file || opts.maxDepth < item.depth then
      bfsLoop svc opts fuel rest visited related
    else
      let visited1 := visited ++ [item.file]
      let related1 :=
        if 0 < item.depth then
          related ++ [⟨item.file, item.relation, item.depth, jsConf item.depth⟩]
        else related
      match svc.foldlM (fun acc lg =>
          (findDirectlyRelated lg.snd item.file (item.depth + 1)
            opts.relationTypes opts.includeReverse).map (fun pushes => acc ++ pushes))
          ([] : List QItem) with
      | none => none
      | some pushes => bfsLoop svc opts fuel (rest ++ pushes) visited1 related1

/-- Every string the BFS can ever visit inside one graph: node keys and
node-label `file` fields (each pushed item's `file` is
`nodeData.file || endpointKey`). -/
def graphUniverse (g : Graph) : List String :=
  g.nodes.map Prod.fst ++ g.nodes.filterMap (fun p => p.snd.bind NodeData.file)

/-- Union of the graph universes of a service. -/
def svcUniverse (svc : Service) : List String :=
  (svc.map (fun lg => graphUniverse lg.snd)).flatten

/-- Upper bound on the number of queue pushes a single processed item can
cause (per graph: every node may match, contributing at most all out- and
in-edges). -/
def pushBound (svc : Service) : Nat :=
  (svc.map (fun lg => lg.snd.nodes.length * (2 * lg.snd.edges.length))).foldl (· + ·) 0

/-- Fuel that exceeds the total number of BFS iterations: the loop runs at
most `1 + pushes` iterations, and each processed iteration consumes a fresh
universe element while adding at most `pushBound` queue items. -/
def bfsFuel (svc : Service) : Nat :=
  2 + (1 + (svcUniverse svc).length) * (pushBound svc + 1)

/-- `GraphService.findRelatedFiles` (lines 188–228): BFS from `targetFile`;
`none` models the JS `TypeError` described at `findDirectlyRelated`. -/
def findRelatedFiles (svc : Service) (targetFile : String) (opts : RelOptions) :
    Option (List Entry) :=
  bfsLoop svc opts (bfsFuel svc) [⟨targetFile, 0, "self"⟩] [] []

/-! ## `GraphTool.findRelatedFiles` (GraphTool.js lines 91–125) -/

/-- A `GraphTool` result item
(`{path, relationship, confidence, depth, reason}`). -/
structure ToolEntry where
  path : String
  relationship : String
  confidence : ℚ
  depth : Nat
  reason : String
  deriving Repr, DecidableEq

/-- `GraphTool.getRelationshipReason` (lines 364–377). -/
def getRelationshipReason (relationship : String) : String :=
  if relationship == "imports" then "imports this module"
  else if relationship == "calls" then "calls functions from this file"
  else if relationship == "inheritance" then "inherits from classes in this file"
  else if relationship == "reverse_imports" then "is imported by this file"
  else if relationship == "reverse_calls" then "has functions called by this file"
  else if relationship == "reverse_inheritance" then "has classes inherited by this file"
  else if relationship == "composition" then "uses components from this file"
  else if relationship == "dependencies" then "depends on this file"
  else "has " ++ relationship ++ " relationship"

/-- The comparator `(a, b) => b.confidence - a.confidence` of GraphTool.js
line 112, as the ordering relation of the (stable) JS sort: `a` may stay
before `b` iff `b.confidence ≤ a.confidence`. -/
def confGE (a b : Entry) : Prop := b.confidence ≤ a.confidence

instance : DecidableRel confGE := fun a b =>
  inferInstanceAs (Decidable (b.confidence ≤ a.confidence))

instance : IsTotal Entry confGE := ⟨fun x y => le_total y.confidence x.confidence⟩

instance : IsTrans Entry confGE := ⟨fun _ _ _ h1 h2 => le_trans h2 h1⟩

/-- The options object of `GraphTool.findRelatedFiles` with its defaults
(lines 96–101). -/
structure ToolOptions where
  depth : Nat := 3
  types : List String := ["imports", "calls", "inheritance"]
  includeReverse : Bool := true
  maxResults : Nat := 20

/-- `GraphTool.findRelatedFiles` (lines 91–125): delegates to the service,
stably sorts by confidence (descending), truncates to `maxResults` and
re-shapes the items; the `catch` block turns an exception into `[]`. -/
def toolFindRelatedFiles (svc : Service) (targetFile : String) (opts : ToolOptions) :
    List ToolEntry :=
  match findRelatedFiles svc targetFile
      { maxDepth := opts.depth, relationTypes := opts.types,
        includeReverse := opts.includeReverse } with
  | none => []
  | some related =>
    ((related.insertionSort confGE).take opts.maxResults).map (fun item =>
      { path := item.path, relationship := item.relationship,
        confidence := item.confidence, depth := item.depth,
        reason := getRelationshipReason item.relationship })

/-! ## `GraphService.findHotPaths` / `findPathsFromNode` (lines 339–402) -/

/-- A node reference inside a reported hot path
(`{id, file, type}` built with optional chaining). -/
structure PathNode where
  id : String
  file : Option String
  type : Option String
  deriving Repr, DecidableEq

/-- A reported hot path (`{language, path, weight}`). -/
structure HotPath where
  language : String
  path : List PathNode
  weight : Nat
  deriving Repr, DecidableEq

/-- The hot-node records of `findHotPaths` lines 346–354
(`{id, degree, data}`). -/
structure DegNode where
  id : String
  degree : Nat
  data : Option NodeData
  deriving Repr, DecidableEq

/-- Total degree as computed on line 349:
`inEdges.length + outEdges.length`. -/
def nodeDegree (g : Graph) (id : String) : Nat :=
  (inEdges g id).length + (outEdges g id).length

/-- Comparator `(a, b) => b.degree - a.degree` of line 353 as the ordering
relation of the stable JS sort. -/
def degGE (a b : DegNode) : Prop := b.degree ≤ a.degree

instance : DecidableRel degGE := fun a b =>
  inferInstanceAs (Decidable (b.degree ≤ a.degree))

/-- The recursive `dfs` closure of `findPathsFromNode` (lines 380–398),
with explicit fuel.  The current path is recorded exactly when extension is
blocked (path already at `maxLength`, or the node is on the current path)
and the path has length > 1; otherwise the node is appended and every
out-edge is explored.  `visited` always equals the set of nodes of
`currentPath` (both are pushed/popped together in the JS code).  The fuel
passed by `findPathsFromNode` is `maxLength + 1`, which the guard makes
unreachable: every recursive call strictly grows `currentPath`, which is
capped at `maxLength`. -/
def dfsPaths (g : Graph) (maxLength : Nat) :
    Nat → List String → List String → String → List (List String)
  | 0, _, _, _ => []
  | fuel + 1, visited, currentPath, node =>
    if maxLength ≤ currentPath.length || visited.contains node then
      if 1 < currentPath.length then [currentPath] else []
    else
      let visited1 := visited ++ [node]
      let path1 := currentPath ++ [node]
      ((outEdges g node).map (fun e => dfsPaths g maxLength fuel visited1 path1 e.w)).flatten

/-- `GraphService.findPathsFromNode` (lines 376–402). -/
def findPathsFromNode (g : Graph) (startNode : String) (maxLength : Nat) :
    List (List String) :=
  dfsPaths g maxLength (maxLength + 1) [] [] startNode

/-- `GraphService.findHotPaths` (lines 339–371): per graph, the five
highest-degree nodes of degree > 2 seed DFS walks of depth ≤ 3; the first
ten collected paths are returned. -/
def findHotPaths (svc : Service) : List HotPath :=
  ((svc.map (fun lg =>
    let g := lg.snd
    let hotNodes :=
      ((((g.nodes.map (fun p =>
          ({ id := p.fst, degree := nodeDegree g p.fst, data := jsNode g p.fst } : DegNode))).filter
        (fun n => 2 < n.degree)).insertionSort degGE).take 5)
    (hotNodes.map (fun hn =>
      (findPathsFromNode g hn.id 3).map (fun path =>
        ({ language := lg.fst,
           path := path.map (fun nid =>
             { id := nid, file := (jsNode g nid).bind NodeData.file,
               type := (jsNode g nid).map NodeData.type }),
           weight := path.length } : HotPath)))).flatten)).flatten).take 10

/-! ## `GraphService.detectCycles` / `findCyclesInGraph` (lines 407–467) -/

/-- The mutable state of the cycle-detection DFS: the `visited` set, the
`recStack` set, the `path` array and the collected `cycles`. -/
structure CycState where
  visited : List String := []
  recStack : List String := []
  path : List String := []
  cycles : List (List String) := []
  deriving Repr, DecidableEq

/-- Lines 437–442: on meeting a node that is on the recursion stack,
record the slice of the current path starting at that node
(`path.indexOf(node)`; `List.indexOf` returns the length when absent,
matching the `!== -1` test). -/
def recordCycle (st : CycState) (node : String) : CycState :=
  let cycleStart := st.path.indexOf node
  if cycleStart < st.path.length then
    { st with cycles := st.cycles ++ [st.path.drop cycleStart] }
  else st

/-- The recursive `dfs` closure of `findCyclesInGraph` (lines 435–458),
with explicit fuel (`none` = fuel exhausted; `cycFuel` is proved
sufficient below). -/
def dfsCyc (g : Graph) : Nat → String → CycState → Option CycState
  | 0, _, _ => none
  | fuel + 1, node, st =>
    if st.recStack.contains node then some (recordCycle st node)
    else if st.visited.contains node then some st
    else
      let st1 := { st with
        visited := st.visited ++ [node],
        recStack := node :: st.recStack,
        path := st.path ++ [node] }
      match (outEdges g node).foldlM (fun s e => dfsCyc g fuel e.w s) st1 with
      | none => none
      | some st2 => some { st2 with
          path := st2.path.dropLast,
          recStack := st2.recStack.erase node }

/-- Every node the cycle DFS can be called on: the graph's node keys
(top-level loop) and edge targets (recursive calls). -/
def cycUniverse (g : Graph) : List String :=
  g.nodes.map Prod.fst ++ g.edges.map Edge.w

/-- Sufficient fuel for `dfsCyc`: each level of recursion permanently
consumes one unvisited element of `cycUniverse`. -/
def cycFuel (g : Graph) : Nat := (cycUniverse g).length + 1

/-- The top-level loop of `findCyclesInGraph` (lines 460–464): run the
DFS from every not-yet-visited node, in node order.  The `none` fallback
is unreachable (`dfsCyc_isSome` below). -/
def cycRun (g : Graph) : CycState :=
  (g.nodes.map Prod.fst).foldl (fun st n =>
    if st.visited.contains n then st
    else
      match dfsCyc g (cycFuel g) n st with
      | some st2 => st2
      | none => st) ({} : CycState)

/-- `GraphService.findCyclesInGraph` (lines 429–467). -/
def findCyclesInGraph (g : Graph) : List (List String) :=
  (cycRun g).cycles

/-! Ghost-instrumented copy of the cycle DFS: identical to
`recordCycle`/`dfsCyc`/`cycRun` on the four real state fields, with an
additional `fin` field recording nodes in finish order.  It exists only to
prove the completeness direction of claim C5; `dfsCycI_proj` shows it
projects onto the real algorithm. -/

/-- `CycState` plus the ghost finish list. -/
structure CycStateI where
  visited : List String := []
  recStack : List String := []
  path : List String := []
  cycles : List (List String) := []
  fin : List String := []
  deriving Repr, DecidableEq

/-- Projection of the instrumented state onto the real state. -/
def projI (st : CycStateI) : CycState :=
  { visited := st.visited, recStack := st.recStack, path := st.path, cycles := st.cycles }

/-- Instrumented `recordCycle` (identical on real fields). -/
def recordCycleI (st : CycStateI) (node : String) : CycStateI :=
  let cycleStart := st.path.indexOf node
  if cycleStart < st.path.length then
    { st with cycles := st.cycles ++ [st.path.drop cycleStart] }
  else st

/-- Instrumented `dfsCyc`: additionally appends the node to `fin` when it
is popped. -/
def dfsCycI (g : Graph) : Nat → String → CycStateI → Option CycStateI
  | 0, _, _ => none
  | fuel + 1, node, st =>
    if st.recStack.contains node then some (recordCycleI st node)
    else if st.visited.contains node then some st
    else
      let st1 := { st with
        visited := st.visited ++ [node],
        recStack := node :: st.recStack,
        path := st.path ++ [node] }
      match (outEdges g node).foldlM (fun s e => dfsCycI g fuel e.w s) st1 with
      | none => none
      | some st2 => some { st2 with
          path := st2.path.dropLast,
          recStack := st2.recStack.erase node,
          fin := st2.fin ++ [node] }

/-- Instrumented top-level loop. -/
def cycRunI (g : Graph) : CycStateI :=
  (g.nodes.map Prod.fst).foldl (fun st n =>
    if st.visited.contains n then st
    else
      match dfsCycI g (cycFuel g) n st with
      | some st2 => st2
      | none => st) ({} : CycStateI)

/-- A cycle record of `GraphService.detectCycles`
(`{language, nodes, length}`). -/
structure CycleRec where
  language : String
  nodes : List PathNode
  length : Nat
  deriving Repr, DecidableEq

/-- `GraphService.detectCycles` (lines 407–424): per-graph cycles, tagged
with the language and re-shaped node records. -/
def detectCycles (svc : Service) : List CycleRec :=
  (svc.map (fun lg =>
    (findCyclesInGraph lg.snd).map (fun cycle =>
      ({ language := lg.fst,
         nodes := cycle.map (fun nid =>
           { id := nid, file := (jsNode lg.snd nid).bind NodeData.file,
             type := (jsNode lg.snd nid).map NodeData.type }),
         length := cycle.length } : CycleRec)))).flatten

/-! ## `GraphClustering` (GraphAwareToolSelector.js lines 402–1004) -/

/-- An element of `graphData.nodes` as consumed by the clusterer (only the
`file` field is read; `none` models a missing field). -/
structure GNode where
  file : Option String := none
  deriving Repr, DecidableEq

/-- An element of `graphData.edges` as consumed by the clusterer:
`src`/`tgt` embed the JS `from`/`to` fields. -/
structure GEdge where
  src : String
  tgt : String
  deriving Repr, DecidableEq

/-- The `graphData` input of `generateSuperGraph`. -/
structure GraphData where
  nodes : List GNode := []
  edges : List GEdge := []
  deriving Repr, DecidableEq

/-- JS `Set.prototype.add` on an insertion-ordered duplicate-free list. -/
def setAdd (l : List String) (x : String) : List String :=
  if l.contains x then l else l ++ [x]

/-- Adjacency map update: add `v` to the neighbor set of `k`
(`edges.get(k).add(v)` after `if (!edges.has(k)) edges.set(k, new Set())`). -/
def adjAdd (m : List (String × List String)) (k v : String) :
    List (String × List String) :=
  match m.find? (fun p => p.fst == k) with
  | some _ => m.map (fun p => if p.fst == k then (p.fst, setAdd p.snd v) else p)
  | none => m ++ [(k, [v])]

/-- Neighbor lookup (`graph.edges.get(node) || new Set()`). -/
def adjGet (m : List (String × List String)) (k : String) : List String :=
  ((m.find? (fun p => p.fst == k)).map Prod.snd).getD []

/-- `node.split('/').pop().split('.')[0]`: the extension-less basename used
by the substring test of `resolveEdgeTarget`. -/
def lastSegmentStem (node : String) : String :=
  String.mk (((splitOnChar '.' ((splitOnChar '/' node.data).getLastD [])).headD []))

/-- `GraphClustering.resolveEdgeTarget` (lines 509–521): exact `Set`
membership, else the first node that contains the target as a substring or
whose basename stem is a substring of the target; `none` for an external
dependency. -/
def resolveEdgeTarget (target : String) (nodes : List String) : Option String :=
  if nodes.contains target then some target
  else nodes.find? (fun node =>
    jsIncludes node target || jsIncludes target (lastSegmentStem node))

/-- The `{nodes, edges}` adjacency structure built by
`buildAdjacencyGraph`. -/
structure AdjGraph where
  nodes : List String
  adj : List (String × List String)
  deriving Repr, DecidableEq

/-- The node-collection step of `buildAdjacencyGraph` (lines 483–487):
`if (node.file) nodes.add(node.file)`. -/
def fileAddStep (acc : List String) (n : GNode) : List String :=
  match n.file with
  | some f => if jsTruthy f then setAdd acc f else acc
  | none => acc

/-- The edge step of `buildAdjacencyGraph` (lines 490–501). -/
def adjEdgeStep (nodes : List String) (m : List (String × List String)) (e : GEdge) :
    List (String × List String) :=
  match resolveEdgeTarget e.tgt nodes with
  | none => m
  | some t =>
    if jsTruthy e.src && jsTruthy t && nodes.contains e.src &&
        nodes.contains t && e.src != t then
      adjAdd (adjAdd m e.src t) t e.src
    else m

/-- `GraphClustering.buildAdjacencyGraph` (lines 478–504): collect truthy
`node.file` values as the node set, then add every resolvable, in-set,
non-self edge to the undirected adjacency map (both directions). -/
def buildAdjacencyGraph (gd : GraphData) : AdjGraph :=
  let nodes := gd.nodes.foldl fileAddStep []
  let adj := gd.edges.foldl (adjEdgeStep nodes) []
  { nodes := nodes, adj := adj }

/-- Community lookup (`communities.get(node)`; every queried node is a
key, the default 0 is never used). -/
def commGet (comm : List (String × Nat)) (node : String) : Nat :=
  ((comm.find? (fun p => p.fst == node)).map Prod.snd).getD 0

/-- Community move (`communities.set(node, c)` for an existing key). -/
def commSet (comm : List (String × Nat)) (node : String) (c : Nat) :
    List (String × Nat) :=
  comm.map (fun p => if p.fst == node then (p.fst, c) else p)

/-- `GraphClustering.calculateCommunityScore` (lines 581–593):
`internalEdges / totalEdges` over the node's neighbor set, 0 when the node
has no neighbors. -/
def communityScore (g : AdjGraph) (node : String) (communityId : Nat)
    (comm : List (String × Nat)) : ℚ :=
  let neighbors := adjGet g.adj node
  let internalEdges := (neighbors.filter (fun nb => commGet comm nb == communityId)).length
  let totalEdges := neighbors.length
  if 0 < totalEdges then (internalEdges : ℚ) / (totalEdges : ℚ) else 0

/-- Neighbor-community tally update (`communityScores.set(c, score + 1)`
with Map insertion-order semantics). -/
def scoreAdd (scores : List (Nat × Nat)) (c : Nat) : List (Nat × Nat) :=
  match scores.find? (fun p => p.fst == c) with
  | some _ => scores.map (fun p => if p.fst == c then (p.fst, p.snd + 1) else p)
  | none => scores ++ [(c, 1)]

/-- Comparator `(a, b) => b[1] - a[1]` of line 561 as the ordering relation
of the stable JS sort over `(community, count)` tallies. -/
def scoreGE (a b : Nat × Nat) : Prop := b.snd ≤ a.snd

instance : DecidableRel scoreGE := fun a b =>
  inferInstanceAs (Decidable (b.snd ≤ a.snd))

/-- The per-node body of the Louvain pass (lines 543–570): tally the
communities of the node's differently-assigned neighbors and move to the
most frequent one when `newScore > currentScore * resolution`. -/
def louvainStep (g : AdjGraph) (resolution : ℚ)
    (acc : List (String × Nat) × Bool) (node : String) :
    List (String × Nat) × Bool :=
  let comm := acc.fst
  let currentCommunity := commGet comm node
  let neighbors := adjGet g.adj node
  let communityScores := neighbors.foldl (fun sc neighbor =>
    let neighborCommunity := commGet comm neighbor
    if neighborCommunity != currentCommunity then scoreAdd sc neighborCommunity else sc) []
  if 0 < communityScores.length then
    let best := ((communityScores.insertionSort scoreGE).headD (0, 0)).fst
    let currentScore := communityScore g node currentCommunity comm
    let newScore := communityScore g node best comm
    if currentScore * resolution < newScore then (commSet comm node best, true)
    else acc
  else acc

/-- One full pass of the Louvain-like loop (lines 543–571): visit every
node in order and apply `louvainStep`.  Returns the updated assignment and
the `improved` flag. -/
def louvainPass (g : AdjGraph) (resolution : ℚ) (comm0 : List (String × Nat)) :
    List (String × Nat) × Bool :=
  g.nodes.foldl (louvainStep g resolution) (comm0, false)

/-- The `while (improved && iteration < maxIterations)` loop of lines
535–572 (at most 10 passes, stopping at the first pass with no move). -/
def louvainLoop (g : AdjGraph) (resolution : ℚ) :
    Nat → List (String × Nat) → List (String × Nat)
  | 0, comm => comm
  | fuel + 1, comm =>
    let r := louvainPass g resolution comm
    if r.snd then louvainLoop g resolution fuel r.fst else r.fst

/-- Lines 530–533: every node starts in its own community `0, 1, …` in
node order. -/
def initialCommunities (g : AdjGraph) : List (String × Nat) :=
  g.nodes.enum.map (fun p => (p.snd, p.fst))

/-- Bucket update of `groupCommunitiesById` (Map insertion-order
semantics). -/
def bucketAdd (buckets : List (Nat × List String)) (cid : Nat) (node : String) :
    List (Nat × List String) :=
  match buckets.find? (fun p => p.fst == cid) with
  | some _ => buckets.map (fun p => if p.fst == cid then (p.fst, p.snd ++ [node]) else p)
  | none => buckets ++ [(cid, [node])]

/-- `GraphClustering.groupCommunitiesById` (lines 598–609). -/
def groupCommunitiesById (comm : List (String × Nat)) : List (Nat × List String) :=
  comm.foldl (fun b p => bucketAdd b p.snd p.fst) []

/-- `GraphClustering.detectCommunities` (lines 526–576). -/
def detectCommunities (g : AdjGraph) (resolution : ℚ) : List (Nat × List String) :=
  groupCommunitiesById (louvainLoop g resolution 10 (initialCommunities g))

/-- Comparator `(a, b) => b[1].length - a[1].length` of line 703 as the
ordering relation of the stable JS sort over `(id, files)` communities. -/
def sizeGE (a b : Nat × List String) : Prop := b.snd.length ≤ a.snd.length

instance : DecidableRel sizeGE := fun a b =>
  inferInstanceAs (Decidable (b.snd.length ≤ a.snd.length))

/-- `GraphClustering.mergeToTarget` (lines 735–761): keep the largest
`targetClusters - 1` communities as `c0, c1, …` and merge every remaining
community into `misc` (the `minClusterSize` parameter is unused in the
source too). -/
def mergeToTarget (sorted : List (Nat × List String))
    (targetClusters : Nat) (_minClusterSize : Nat) : List (String × List String) :=
  let mainClusters := sorted.take (targetClusters - 1)
  let remaining := sorted.drop (targetClusters - 1)
  let optimized := mainClusters.enum.map (fun p => (s!"c{p.fst}", p.snd.snd))
  let miscFiles := (remaining.map Prod.snd).flatten
  if miscFiles.isEmpty then optimized else optimized ++ [("misc", miscFiles)]

/-- Fold state of the standard branch of `optimizeClusters`
(lines 712–714). -/
structure OptState where
  optimized : List (String × List String)
  miscFiles : List String
  clusterId : Nat
  deriving Repr, DecidableEq

/-- The per-community body of `optimizeClusters`' standard branch (lines
716–722): keep the community as `c<id>` when it is large enough and fewer
than `maxClusters - 1` clusters are kept, else absorb it into the pending
`misc` files. -/
def optStep (maxClusters minClusterSize : Nat) (st : OptState) (p : Nat × List String) :
    OptState :=
  if minClusterSize ≤ p.snd.length ∧ st.optimized.length < maxClusters - 1 then
    { optimized := st.optimized ++ [(s!"c{st.clusterId}", p.snd)],
      miscFiles := st.miscFiles, clusterId := st.clusterId + 1 }
  else { st with miscFiles := st.miscFiles ++ p.snd }

/-- `GraphClustering.optimizeClusters` (lines 698–730): sort communities
by size (descending, stable); if there are more than `maxClusters`, merge
aggressively via `mergeToTarget`; otherwise keep communities of size
≥ `minClusterSize` while fewer than `maxClusters - 1` clusters are kept
(`optStep`), and absorb everything else into `misc`. -/
def optimizeClusters (communities : List (Nat × List String))
    (targetClusters maxClusters minClusterSize : Nat) : List (String × List String) :=
  let sorted := communities.insertionSort sizeGE
  if maxClusters < sorted.length then mergeToTarget sorted targetClusters minClusterSize
  else
    let st := sorted.foldl (optStep maxClusters minClusterSize) ⟨[], [], 0⟩
    if st.miscFiles.isEmpty then st.optimized
    else st.optimized ++ [("misc", st.miscFiles)]

/-- Default `smallProjectThreshold` (line 421). -/
def smallProjectThreshold : Nat := 20

/-- Line 438–441: `Math.max(Math.ceil(size / targetReduction), 5)` with the
default `targetReduction = 100`. -/
def targetClustersFor (n : Nat) : Nat := max (jsCeilDiv n 100) 5

/-- Line 442: `Math.min(targetClusters * 2, 50)`. -/
def maxClustersFor (n : Nat) : Nat := min (targetClustersFor n * 2) 50

/-- The cluster assignment computed by the community-detection branch of
`generateSuperGraph` (lines 437–464), with the default options
(`targetReduction = 100`, `minClusterSize = 2`, `resolution = 1.0`).  The
`try`/`catch` around `detectCommunities` is dropped: the embedded function
is total, and the JS function contains no throwing operation on this
path. -/
def superGraphCommunities (gd : GraphData) : List (String × List String) :=
  let g := buildAdjacencyGraph gd
  optimizeClusters (detectCommunities g 1) (targetClustersFor g.nodes.length)
    (maxClustersFor g.nodes.length) 2

/-! ## `createFullGraphSuperGraph` and the small-project branch -/

/-- `GraphClustering.getLanguageFromFile` (lines 970–985). -/
def getLanguageFromFile (filePath : String) : String :=
  let ext := String.mk (((splitOnChar '.' filePath.data).getLastD []).map Char.toLower)
  if ext == "js" then "JavaScript"
  else if ext == "ts" then "TypeScript"
  else if ext == "py" then "Python"
  else if ext == "cpp" then "C++"
  else if ext == "c" then "C"
  else if ext == "h" then "C"
  else if ext == "hpp" then "C++"
  else if ext == "java" then "Java"
  else if ext == "go" then "Go"
  else if ext == "rs" then "Rust"
  else if jsTruthy ext then ext
  else "Unknown"

/-- `filePath.replace(/^\.\//, '')`. -/
def stripDotSlash (l : List Char) : List Char :=
  match l with
  | '.' :: '/' :: rest => rest
  | _ => l

/-- `GraphClustering.shortenPath` (lines 990–1003). -/
def shortenPath (filePath : String) : String :=
  if !jsTruthy filePath then ""
  else
    let shortened := stripDotSlash filePath.data
    let parts := splitOnChar '/' shortened
    if 3 < parts.length then
      ".../" ++ String.mk (List.intercalate ['/'] (parts.drop (parts.length - 2)))
    else String.mk (List.intercalate ['/'] parts)

/-- A cluster record of the super-graph. -/
structure Cluster where
  id : String
  files : Nat
  size : String
  description : String
  keyFiles : List String
  languages : List String
  fileList : List String
  deriving Repr, DecidableEq

/-- A super-graph edge (`{from, to, weight, type}`; `src`/`tgt` embed
`from`/`to`). -/
structure SuperEdge where
  src : String
  tgt : String
  weight : Nat
  type : String
  deriving Repr, DecidableEq

/-- Super-graph metadata (the wall-clock `timestamp` field is omitted from
the embedding). -/
structure SuperMeta where
  totalFiles : Nat
  totalClusters : Nat
  compressionRatio : Nat
  strategy : Option String := none
  deriving Repr, DecidableEq

/-- The super-graph artifact. -/
structure SuperGraph where
  clusters : List (String × Cluster)
  edges : List SuperEdge
  metadata : SuperMeta
  deriving Repr, DecidableEq

/-- `GraphClustering.findClusterForFile` (lines 686–693): first cluster
whose `fileList` contains the path exactly. -/
def findClusterForFile (filePath : String) (clusters : List (String × Cluster)) :
    Option String :=
  (clusters.find? (fun p => p.snd.fileList.contains filePath)).map Prod.fst

/-- The super-graph value constructed by `createFullGraphSuperGraph`
(lines 635–679) before its final statement: one single-member cluster
`f0, f1, …` per file and a weight-1 super-edge for every file-level edge
whose two endpoints land in distinct clusters. -/
def fullGraphSuperGraphValue (gd : GraphData) (g : AdjGraph) : SuperGraph :=
  let clusters := g.nodes.enum.map (fun p =>
    (s!"f{p.fst}",
      ({ id := s!"f{p.fst}", files := 1, size := "~50 LoC",
         description := shortenPath p.snd, keyFiles := [p.snd],
         languages := [getLanguageFromFile p.snd], fileList := [p.snd] } : Cluster)))
  let edges := gd.edges.foldl (fun acc e =>
    match findClusterForFile e.src clusters, findClusterForFile e.tgt clusters with
    | some fromCluster, some toCluster =>
      if fromCluster != toCluster then
        acc ++ [{ src := fromCluster, tgt := toCluster, weight := 1,
                  type := "file_dependency" }]
      else acc
    | _, _ => acc) ([] : List SuperEdge)
  { clusters := clusters, edges := edges,
    metadata := { totalFiles := g.nodes.length, totalClusters := clusters.length,
                  compressionRatio := 1, strategy := some "full_graph" } }

/-- `GraphClustering.createFullGraphSuperGraph` (lines 635–681): the
function builds `fullGraphSuperGraphValue` and then executes
`return this.saveSuperGraph(superGraph)` — but `saveSuperGraph` is defined
nowhere in the class (or the repository), so the call raises
`TypeError: this.saveSuperGraph is not a function` and the constructed
super-graph is never returned. -/
def createFullGraphSuperGraph (gd : GraphData) (g : AdjGraph) :
    Except String SuperGraph :=
  let _superGraph := fullGraphSuperGraphValue gd g
  .error "TypeError: this.saveSuperGraph is not a function"

/-- The small-project check of `generateSuperGraph` (lines 431–435):
`some result` when the file count is below `smallProjectThreshold` (the
branch taken), `none` when the community-detection branch
(`superGraphCommunities`) runs instead. -/
def generateSuperGraphSmall (gd : GraphData) : Option (Except String SuperGraph) :=
  let g := buildAdjacencyGraph gd
  if g.nodes.length < smallProjectThreshold then
    some (createFullGraphSuperGraph gd g)
  else none

/-! ## Spec-side predicates and concrete example inputs -/

/-- The spec's notion for claim C5: the graph's edges admit a topological
order. -/
def TopoOrder (g : Graph) : Prop :=
  ∃ f : String → Nat, ∀ e ∈ g.edges, f e.v < f e.w

/-- The graphlib invariant that `setEdge` guarantees: every edge endpoint
is a node key. -/
def edgesClosed (g : Graph) : Prop :=
  ∀ e ∈ g.edges, e.v ∈ g.nodes.map Prod.fst ∧ e.w ∈ g.nodes.map Prod.fst

/-- The edge relation of an embedded graph. -/
def edgeRelOf (g : Graph) (a b : String) : Prop :=
  ∃ e ∈ g.edges, e.v = a ∧ e.w = b

/-- A genuine directed cycle: a non-empty edge-chain whose last node has
an edge back to its first node. -/
def cycleOK (g : Graph) (c : List String) : Prop :=
  c ≠ [] ∧ List.Chain' (edgeRelOf g) c ∧
    ∃ a b, c.head? = some a ∧ c.getLast? = some b ∧ edgeRelOf g b a

/-- Soundness invariant of the cycle DFS: the recursion stack mirrors the
path, the path is an edge-chain, and every recorded cycle is genuine. -/
def cycInvA (g : Graph) (st : CycState) : Prop :=
  st.recStack = st.path.reverse ∧
  List.Chain' (edgeRelOf g) st.path ∧
  ∀ c ∈ st.cycles, cycleOK g c

/-- Completeness invariant of the instrumented cycle DFS: the finish list
is duplicate-free and closed under out-edges with decreasing indices, the
visited set is exactly finish list plus path, the recursion stack mirrors
the path, and the finish list is disjoint from the path. -/
def cycInvB (g : Graph) (st : CycStateI) : Prop :=
  st.fin.Nodup ∧
  (∀ a ∈ st.fin, ∀ e ∈ g.edges, e.v = a →
    e.w ∈ st.fin ∧ st.fin.indexOf e.w < st.fin.indexOf a) ∧
  (∀ x, x ∈ st.visited ↔ (x ∈ st.fin ∨ x ∈ st.path)) ∧
  st.recStack = st.path.reverse ∧
  (∀ x ∈ st.fin, x ∉ st.path) ∧
  st.path.Nodup

/-- The number of universe elements the cycle DFS has not yet visited
(its recursion-depth budget). -/
def unvisCount (g : Graph) (visited : List String) : Nat :=
  ((cycUniverse g).filter (fun x => !(visited.contains x))).length

/-- Whether any node of any graph of the service fuzzy-matches `file`
under `findDirectlyRelated`'s matching rule. -/
def svcNodeMatch (svc : Service) (file : String) : Bool :=
  svc.any (fun lg => lg.snd.nodes.any (fun p =>
    match p.snd with
    | some d => nodeMatchesFile d file
    | none => false))

/-- Scenario S1 of the spec: `a.js` imports `./b.js`, `b.js` empty, in the
Madge JSON form `{"a.js": ["b.js"], "b.js": []}`. -/
def exMadgeS1 : List (String × List String) := [("a.js", ["b.js"]), ("b.js", [])]

/-- The service holding the scenario-S1 JavaScript graph. -/
def exSvcS1 : Service := [("javascript", parseJsonGraphMadge exMadgeS1)]

/-- A Madge graph with two same-depth dependencies listed in non-path
order. -/
def exMadgeTie : List (String × List String) := [("a.js", ["z.js", "b.js"])]

/-- The service holding the tie-order graph. -/
def exSvcTie : Service := [("javascript", parseJsonGraphMadge exMadgeTie)]

/-- The first result entry of the tie-order query (`z.js` at depth 1). -/
def exEntryZ : Entry :=
  { path := "z.js", relationship := "import", depth := 1, confidence := jsConf 1 }

/-- A Madge graph whose only source node lives under a directory
(`src/a.js`), for the unknown-path suffix-matching counterexample. -/
def exMadgeSrc : List (String × List String) := [("src/a.js", ["b.js"])]

/-- The service holding the `src/a.js` graph. -/
def exSvcSrc : Service := [("javascript", parseJsonGraphMadge exMadgeSrc)]

/-- A graph with an unlabeled edge endpoint: `src/q.js` is labeled, while
its import target `r.js` exists only as a graphlib auto-created key.  The
tree-sitter branch of `parseJsonGraph` (edges set for arbitrary
`from`/`to` while only `data.nodes` get labels) and the DOT parser (edges
between nodes lacking a definition line) both produce this shape. -/
def exGraphUnlabeled : Graph :=
  setEdge (setNode {} "src/q.js" { type := "module", file := some "src/q.js" })
    "src/q.js" "r.js" { type := "imports", weight := 1 }

/-- The service holding the unlabeled-endpoint graph. -/
def exSvcUnlabeled : Service := [("javascript", exGraphUnlabeled)]

/-- A hub of out-degree 3 whose three targets are leaves. -/
def exMadgeHub : List (String × List String) := [("h.js", ["a.js", "b.js", "c.js"])]

/-- The service holding the hub graph. -/
def exSvcHub : Service := [("javascript", parseJsonGraphMadge exMadgeHub)]

/-- A three-node cycle with a chord, giving two nodes of total degree 3. -/
def exMadgeCyc : List (String × List String) :=
  [("a.js", ["b.js", "c.js"]), ("b.js", ["c.js"]), ("c.js", ["a.js"])]

/-- The service holding the cyclic graph. -/
def exSvcCyc : Service := [("javascript", parseJsonGraphMadge exMadgeCyc)]

/-- The first hot path that `findHotPaths` reports for the cyclic example
graph. -/
def exHotPath : HotPath :=
  { language := "javascript",
    path := [{ id := "a.js", file := some "a.js", type := some "module" },
             { id := "b.js", file := some "b.js", type := some "module" },
             { id := "c.js", file := some "c.js", type := some "module" }],
    weight := 3 }

/-- Scenario S3 of the spec: five mutually disconnected files. -/
def gd5 : GraphData :=
  { nodes := [{ file := some "a.js" }, { file := some "b.js" }, { file := some "c.js" },
              { file := some "d.js" }, { file := some "e.js" }] }

/-- Distinct non-empty file names (`"a"`, `"aa"`, …) for parameterised
counterexample repositories. -/
def isoName (i : Nat) : String := String.mk (List.replicate (i + 1) 'a')

/-- A repository of `n` mutually disconnected files. -/
def isolatedGraphData (n : Nat) : GraphData :=
  { nodes := (List.range n).map (fun i => { file := some (isoName i) }) }

/-! ## Theorems -/

/-- **C1** (code bug).  For scenario S1 — `a.js` importing `./b.js`, `b.js`
empty — `findRelatedFiles(a.js, {maxDepth: 1})` with the default options
returns the empty list, not `[b.js]`: the Madge parser stores the edge type
as the singular `"import"` while the default `relationTypes` filter is
`["imports", "calls", "inheritance"]`, so the only edge is filtered out.
With `"import"` in the filter the expected single depth-1 import result
for `b.js` does appear, exhibiting the intent. -/
theorem c1_scenario_s1_returns_empty :
    findRelatedFiles exSvcS1 "a.js" { maxDepth := 1 } = some [] ∧
    ({} : RelOptions).relationTypes = ["imports", "calls", "inheritance"] ∧
    (parseJsonGraphMadge exMadgeS1).edges =
      [{ v := "a.js", w := "b.js", data := { type := "import", weight := 1 } }] ∧
    findRelatedFiles exSvcS1 "a.js" { maxDepth := 1, relationTypes := ["import"] } =
      some [{ path := "b.js", relationship := "import", depth := 1,
              confidence := jsConf 1 }] :=
  ⟨rfl, rfl, rfl, rfl⟩

/-- **C7** (code bug).  For the five-file disconnected repository the
small-project branch is taken and the intended super-graph — five
single-member clusters, zero super-edges, compression ratio 1, strategy
`full_graph` — is constructed, but `createFullGraphSuperGraph` then calls
the nonexistent method `saveSuperGraph`, so the call raises a `TypeError`
instead of returning that super-graph. -/
theorem c7_small_project_type_error :
    generateSuperGraphSmall gd5 =
      some (Except.error "TypeError: this.saveSuperGraph is not a function") ∧
    (fullGraphSuperGraphValue gd5 (buildAdjacencyGraph gd5)).clusters.length = 5 ∧
    (∀ c ∈ (fullGraphSuperGraphValue gd5 (buildAdjacencyGraph gd5)).clusters,
      c.snd.fileList.length = 1) ∧
    (fullGraphSuperGraphValue gd5 (buildAdjacencyGraph gd5)).edges = [] ∧
    (fullGraphSuperGraphValue gd5 (buildAdjacencyGraph gd5)).metadata.compressionRatio = 1 ∧
    (fullGraphSuperGraphValue gd5 (buildAdjacencyGraph gd5)).metadata.strategy =
      some "full_graph" := by
  refine ⟨rfl, rfl, ?_, rfl, rfl, rfl⟩
  decide

/-- **C10** (counterexample).  The target `"util"` is resolved to the node
`"src/utils.js"` although it is not an exact repository-relative path match
and no module-to-path conversion of `"util"` equals that node: the
resolution happens purely because `"util"` is a substring of the node's
path. -/
theorem c10_counterexample_substring_resolution :
    resolveEdgeTarget "util" ["src/utils.js"] = some "src/utils.js" ∧
    "util" ≠ "src/utils.js" ∧
    jsIncludes "src/utils.js" "util" = true ∧
    (∀ s ∈ (["util", "util.js", "util.ts", "util.tsx", "util.jsx", "util/index.js",
             "util.py", "util/__init__.py"] : List String), s ≠ "src/utils.js") := by
  refine ⟨rfl, by decide, rfl, by decide⟩

/-- **C9** (counterexample).  Merely-unknown starting paths refute both
parts of the claim.  (i) `"a.js"` is not a known file node of the
`src/a.js` store (the nodes are `src/a.js` and `b.js`), yet `find_related`
returns a non-empty result because the node-matching rule accepts any
stored path that ends with the queried path.  (ii) `"q.js"` is not a known
file node of the unlabeled-endpoint store, and there `find_related` with
the default options hits the `targetNode.file`-on-`undefined` `TypeError`
of GraphService.js line 252 (modeled as `none`) instead of returning an
empty success result. -/
theorem c9_counterexample_unknown_path_nonempty :
    ("a.js" ∉ (parseJsonGraphMadge exMadgeSrc).nodes.map Prod.fst ∧
      findRelatedFiles exSvcSrc "a.js" { relationTypes := ["import"] } =
        some [{ path := "b.js", relationship := "import", depth := 1,
                confidence := jsConf 1 },
              { path := "src/a.js", relationship := "reverse_import", depth := 2,
                confidence := jsConf 2 }]) ∧
    ("q.js" ∉ exGraphUnlabeled.nodes.map Prod.fst ∧
      findRelatedFiles exSvcUnlabeled "q.js" {} = none) :=
  ⟨⟨by decide, rfl⟩, by decide, rfl⟩

/-- **C8** (counterexample).  In the hub graph (`h.js` importing three leaf
files) the node `h.js` has total degree 3 and an out-edge to `a.js`, so the
simple path `[h.js, a.js]` has length 2 and the claim requires `hot_paths`
to return it — but the code returns no hot path at all: the DFS only
records a path when extension is blocked by the depth cap or a revisit,
never when it reaches a dead end. -/
theorem c8_counterexample_missing_short_paths :
    findHotPaths exSvcHub = [] ∧
    nodeDegree (parseJsonGraphMadge exMadgeHub) "h.js" = 3 ∧
    (∃ e ∈ (parseJsonGraphMadge exMadgeHub).edges, e.v = "h.js" ∧ e.w = "a.js") ∧
    "h.js" ≠ "a.js" := by
  refine ⟨rfl, rfl, by decide, by decide⟩

/-- **C3** (counterexample).  For the graph `a.js → z.js, b.js` (queried
with the relation type the parser actually stores), both results have
confidence `jsConf 1`, yet the returned order is `[z.js, b.js]` — the
stable sort keeps BFS discovery order for ties instead of breaking them by
path order (`b.js < z.js`). -/
theorem c3_counterexample_tie_not_path_ordered :
    toolFindRelatedFiles exSvcTie "a.js" { types := ["import"] } =
      [{ path := "z.js", relationship := "import", confidence := jsConf 1, depth := 1,
         reason := "has import relationship" },
       { path := "b.js", relationship := "import", confidence := jsConf 1, depth := 1,
         reason := "has import relationship" }] ∧
    "b.js".data < "z.js".data := by
  constructor
  · have h1 : findRelatedFiles exSvcTie "a.js"
        { maxDepth := 3, relationTypes := ["import"], includeReverse := true } =
        some [{ path := "z.js", relationship := "import", depth := 1,
                confidence := jsConf 1 },
              { path := "b.js", relationship := "import", depth := 1,
                confidence := jsConf 1 }] := rfl
    unfold toolFindRelatedFiles
    rw [h1]
    simp only [List.insertionSort, List.orderedInsert]
    rw [if_pos (show confGE
        { path := "z.js", relationship := "import", depth := 1, confidence := jsConf 1 }
        { path := "b.js", relationship := "import", depth := 1, confidence := jsConf 1 }
      from le_refl (jsConf 1))]
    rfl
  · decide

/-- **C3** (amended).  The list returned by `GraphTool.findRelatedFiles`
is sorted by confidence in descending order (ties keep the BFS discovery
order of the stable sort — not path order, see the counterexample). -/
theorem c3_tool_results_sorted_by_confidence (svc : Service) (targetFile : String)
    (opts : ToolOptions) :
    List.Pairwise (fun a b : ToolEntry => b.confidence ≤ a.confidence)
      (toolFindRelatedFiles svc targetFile opts) := by
  unfold toolFindRelatedFiles
  cases h : findRelatedFiles svc targetFile
      { maxDepth := opts.depth, relationTypes := opts.types,
        includeReverse := opts.includeReverse } with
  | none => exact List.Pairwise.nil
  | some related =>
    have hs : List.Pairwise confGE (related.insertionSort confGE) :=
      List.sorted_insertionSort confGE related
    have ht : List.Pairwise confGE ((related.insertionSort confGE).take opts.maxResults) :=
      hs.sublist (List.take_sublist _ _)
    exact ht.map _ (fun a b hab => hab)

/-- Helper: a graph in which no node matches `file` contributes no queue
items. -/
theorem findDirectlyRelated_of_no_match (g : Graph) (file : String) (nd : Nat)
    (rt : List String) (ir : Bool)
    (h : ∀ p ∈ g.nodes,
      (match p.snd with | some d => nodeMatchesFile d file | none => false) = false) :
    findDirectlyRelated g file nd rt ir = some [] := by
  unfold findDirectlyRelated
  have hf : g.nodes.filter (fun p =>
      match p.snd with | some d => nodeMatchesFile d file | none => false) = [] := by
    rw [List.filter_eq_nil_iff]
    intro p hp
    simp [h p hp]
  rw [hf]
  rfl

/-- Helper: when every graph contributes no queue items, the per-graph
expansion fold returns the accumulator unchanged. -/
theorem svc_fold_pushes_empty (svc : Service) (file : String) (nd : Nat)
    (rts : List String) (ir : Bool)
    (h : ∀ lg ∈ svc, findDirectlyRelated lg.snd file nd rts ir = some []) :
    ∀ acc, svc.foldlM (fun acc lg =>
      (findDirectlyRelated lg.snd file nd rts ir).map (fun pushes => acc ++ pushes))
        acc = some acc := by
  induction svc with
  | nil => intro acc; rfl
  | cons hd tl ih =>
    intro acc
    have hhd := h hd (List.mem_cons_self hd tl)
    simp only [List.foldlM_cons, hhd]
    simp only [Option.map_some', List.append_nil, Option.bind_eq_bind, Option.some_bind]
    exact ih (fun lg hm => h lg (List.mem_cons_of_mem hd hm)) acc

/-- **C9** (amended).  `find_related` returns the empty result — and no
error — whenever the starting path matches no stored node under the
store's fuzzy matching rule (exact equality, node file ending with the
query, or query ending with the node file).  Merely being "not a known
file node" guarantees neither part of the claim: the counterexample shows
an unknown path that suffix-matches a stored node returning non-empty
results, and an unknown path that fuzzy-matches a labeled node with a
filter-passing edge to an unlabeled endpoint raising a `TypeError`. -/
theorem c9_unmatched_start_returns_empty (svc : Service) (targetFile : String)
    (opts : RelOptions) (h : svcNodeMatch svc targetFile = false) :
    findRelatedFiles svc targetFile opts = some [] := by
  have hfm : ∀ lg ∈ svc, findDirectlyRelated lg.snd targetFile 1
      opts.relationTypes opts.includeReverse = some [] := by
    intro lg hm
    apply findDirectlyRelated_of_no_match
    intro p hp
    have h1 : lg.snd.nodes.any (fun p =>
        match p.snd with
        | some d => nodeMatchesFile d targetFile
        | none => false) = false := by
      have := List.any_eq_false.mp h lg hm
      simpa using this
    have h2 := List.any_eq_false.mp h1 p hp
    simpa using h2
  unfold findRelatedFiles
  obtain ⟨k, hk⟩ : ∃ k, bfsFuel svc = Nat.succ (Nat.succ k) := by
    refine ⟨bfsFuel svc - 2, ?_⟩
    have : 2 ≤ bfsFuel svc := by
      unfold bfsFuel
      omega
    omega
  rw [hk]
  show bfsLoop svc opts (k + 1 + 1) [⟨targetFile, 0, "self"⟩] [] [] = some []
  rw [bfsLoop]
  rw [if_neg (by simp)]
  rw [svc_fold_pushes_empty svc targetFile 1 opts.relationTypes opts.includeReverse hfm []]
  rfl

/-- The entry invariant of the BFS loop used for claim C4. -/
theorem bfsLoop_entries_inv (svc : Service) (opts : RelOptions) (t : String) :
    ∀ fuel queue visited related res,
      (t ∈ visited ∨ queue.head? = some ⟨t, 0, "self"⟩) →
      (∀ e ∈ related, 1 ≤ e.depth ∧ e.path ≠ t ∧ e.confidence = jsConf e.depth) →
      bfsLoop svc opts fuel queue visited related = some res →
      ∀ e ∈ res, 1 ≤ e.depth ∧ e.path ≠ t ∧ e.confidence = jsConf e.depth := by
  intro fuel
  induction fuel with
  | zero => intro queue visited related res _ _ hrun; cases hrun
  | succ n ih =>
    intro queue visited related res hv hrel hrun
    match queue with
    | [] =>
      rw [bfsLoop] at hrun
      cases hrun
      exact hrel
    | item :: rest =>
      rw [bfsLoop] at hrun
      have hitem : (item :: rest).head? = some item := rfl
      cases hcb : (visited.contains item.file || decide (opts.maxDepth < item.depth)) with
      | true =>
        rw [if_pos hcb] at hrun
        refine ih rest visited related res ?_ hrel hrun
        left
        rcases hv with hv | hv
        · exact hv
        · have hif : item = ⟨t, 0, "self"⟩ := by
            have := hv
            rw [hitem] at this
            exact Option.some_injective _ this
          rcases Bool.or_eq_true _ _ |>.mp hcb with hc | hc
          · have : item.file ∈ visited := List.mem_of_elem_eq_true hc
            rw [hif] at this
            exact this
          · exfalso
            have hlt := of_decide_eq_true hc
            rw [hif] at hlt
            exact absurd hlt (Nat.not_lt_zero _)
      | false =>
        rw [if_neg (by rw [hcb]; simp)] at hrun
        have hbo := Bool.or_eq_false_iff.mp hcb
        have hnotmem : item.file ∉ visited := by
          intro hmem
          have : visited.contains item.file = true := List.elem_eq_true_of_mem hmem
          rw [hbo.1] at this
          cases this
        cases hpush : svc.foldlM (fun acc lg =>
            (findDirectlyRelated lg.snd item.file (item.depth + 1)
              opts.relationTypes opts.includeReverse).map (fun pushes => acc ++ pushes))
            ([] : List QItem) with
        | none => rw [hpush] at hrun; cases hrun
        | some pushes =>
          rw [hpush] at hrun
          have htv : t ∈ visited ++ [item.file] := by
            rcases hv with hv | hv
            · exact List.mem_append_left _ hv
            · have hif : item = ⟨t, 0, "self"⟩ := by
                rw [hitem] at hv
                exact Option.some_injective _ hv
              rw [hif]
              exact List.mem_append_right _ (List.mem_singleton.mpr rfl)
          refine ih (rest ++ pushes) (visited ++ [item.file]) _ res (Or.inl htv) ?_ hrun
          intro e he
          by_cases hd : 0 < item.depth
          · rw [if_pos hd] at he
            rcases List.mem_append.mp he with he | he
            · exact hrel e he
            · have he2 : e = ⟨item.file, item.relation, item.depth, jsConf item.depth⟩ :=
                List.mem_singleton.mp he
              subst he2
              refine ⟨hd, ?_, rfl⟩
              intro hpath
              have hpath2 : item.file = t := hpath
              rcases hv with hv | hv
              · exact hnotmem (hpath2 ▸ hv)
              · have hif : item = ⟨t, 0, "self"⟩ := by
                  rw [hitem] at hv
                  exact Option.some_injective _ hv
                rw [hif] at hd
                exact absurd hd (Nat.lt_irrefl 0)
          · rw [if_neg hd] at he
            exact hrel e he

/-- **C4** (confirmed).  Every entry returned by
`GraphService.findRelatedFiles` has depth at least 1, is never the
starting file itself, and its confidence is exactly
`max(0.1, 1 − 0.2·depth)`. -/
theorem c4_entry_depth_confidence (svc : Service) (targetFile : String)
    (opts : RelOptions) (entries : List Entry)
    (h : findRelatedFiles svc targetFile opts = some entries) :
    ∀ e ∈ entries, 1 ≤ e.depth ∧ e.path ≠ targetFile ∧
      e.confidence = max 0.1 (1 - (e.depth : ℚ) * 0.2) := by
  have := bfsLoop_entries_inv svc opts targetFile (bfsFuel svc)
    [⟨targetFile, 0, "self"⟩] [] [] entries (Or.inr rfl) (by intro e he; cases he) h
  intro e he
  exact this e he

/-- **C4** witness: the theorem applied to the tie-order example, at its
first returned entry. -/
theorem c4_witness :
    1 ≤ exEntryZ.depth ∧ exEntryZ.path ≠ "a.js" ∧
      exEntryZ.confidence = max 0.1 (1 - (exEntryZ.depth : ℚ) * 0.2) :=
  c4_entry_depth_confidence exSvcTie "a.js" { relationTypes := ["import"] } _ rfl
    exEntryZ (List.mem_cons_self _ _)

/-- **C10** (amended).  `resolveEdgeTarget` resolves a target either by
exact membership in the node set or by the substring rule (the node
contains the target, or the basename stem of the node is contained in the
target); when it returns `none` the target is no node and no node passes
the substring rule.  Substring resolution does happen (see the
counterexample), contradicting the original claim. -/
theorem c10_resolve_characterization (target : String) (nodes : List String) :
    (∀ r, resolveEdgeTarget target nodes = some r →
      (r = target ∧ target ∈ nodes) ∨
      (r ∈ nodes ∧ (jsIncludes r target = true ∨
        jsIncludes target (lastSegmentStem r) = true))) ∧
    (resolveEdgeTarget target nodes = none →
      target ∉ nodes ∧ ∀ n ∈ nodes,
        jsIncludes n target = false ∧ jsIncludes target (lastSegmentStem n) = false) := by
  unfold resolveEdgeTarget
  by_cases hc : nodes.contains target = true
  · rw [if_pos hc]
    constructor
    · intro r hr
      cases hr
      exact Or.inl ⟨rfl, by simpa using hc⟩
    · intro hr; cases hr
  · rw [if_neg hc]
    constructor
    · intro r hr
      refine Or.inr ⟨List.mem_of_find?_eq_some hr, ?_⟩
      have := List.find?_some hr
      rcases Bool.or_eq_true _ _ |>.mp this with h1 | h1
      · exact Or.inl h1
      · exact Or.inr h1
    · intro hr
      refine ⟨by simpa using hc, ?_⟩
      intro n hn
      have := List.find?_eq_none.mp hr n hn
      constructor
      · cases h1 : jsIncludes n target
        · rfl
        · exact absurd (by simp [h1]) this
      · cases h1 : jsIncludes target (lastSegmentStem n)
        · rfl
        · exact absurd (by simp [h1]) this

/-- **C10** witness: the characterization applied to an exact-match
resolution. -/
theorem c10_witness :
    ("a" = "a" ∧ "a" ∈ ["a"]) ∨
    ("a" ∈ ["a"] ∧ (jsIncludes "a" "a" = true ∨
      jsIncludes "a" (lastSegmentStem "a") = true)) :=
  (c10_resolve_characterization "a" ["a"]).1 "a" rfl

/-- **C9** witness: a start path matching nothing in the S1 store yields
the empty result. -/
theorem c9_witness :
    findRelatedFiles exSvcS1 "zzz.qqq" {} = some [] :=
  c9_unmatched_start_returns_empty exSvcS1 "zzz.qqq" {} (by decide)

/-! ### Clustering lemmas (claims C2 and C6) -/

/-- Membership in a `setAdd` result. -/
theorem mem_setAdd (l : List String) (x y : String) :
    y ∈ setAdd l x ↔ y ∈ l ∨ y = x := by
  unfold setAdd
  by_cases h : l.contains x = true
  · rw [if_pos h]
    constructor
    · exact Or.inl
    · rintro (hy | rfl)
      · exact hy
      · exact List.mem_of_elem_eq_true h
  · rw [if_neg h]
    simp [List.mem_append]

/-- `setAdd` preserves duplicate-freeness. -/
theorem setAdd_nodup (l : List String) (x : String) (h : l.Nodup) :
    (setAdd l x).Nodup := by
  unfold setAdd
  by_cases hc : l.contains x = true
  · rw [if_pos hc]; exact h
  · rw [if_neg hc]
    refine List.Nodup.append h (List.nodup_singleton x) ?_
    intro a ha hax
    rw [List.mem_singleton] at hax
    subst hax
    exact hc (List.elem_eq_true_of_mem ha)

/-- The node-collection fold of `buildAdjacencyGraph` keeps the node set
duplicate-free. -/
theorem foldl_fileAddStep_nodup (l : List GNode) :
    ∀ acc : List String, acc.Nodup → (l.foldl fileAddStep acc).Nodup := by
  induction l with
  | nil => intro acc h; exact h
  | cons n t ih =>
    intro acc h
    rw [List.foldl_cons]
    apply ih
    rcases hnf : n.file with _ | f
    · have hs : fileAddStep acc n = acc := by simp [fileAddStep, hnf]
      rw [hs]; exact h
    · by_cases ht : jsTruthy f = true
      · have hs : fileAddStep acc n = setAdd acc f := by
          simp only [fileAddStep, hnf]
          rw [if_pos ht]
        rw [hs]; exact setAdd_nodup acc f h
      · have hs : fileAddStep acc n = acc := by
          simp only [fileAddStep, hnf]
          rw [if_neg ht]
        rw [hs]; exact h

/-- The node set of the adjacency graph is duplicate-free. -/
theorem buildAdj_nodes_nodup (gd : GraphData) :
    (buildAdjacencyGraph gd).nodes.Nodup :=
  foldl_fileAddStep_nodup gd.nodes [] List.nodup_nil

/-- `commSet` only rewrites values: the key list is unchanged. -/
theorem commSet_keys (comm : List (String × Nat)) (node : String) (c : Nat) :
    (commSet comm node c).map Prod.fst = comm.map Prod.fst := by
  unfold commSet
  rw [List.map_map]
  apply List.map_congr_left
  intro p _
  show (if (p.fst == node) = true then (p.fst, c) else p).fst = p.fst
  split <;> rfl

/-- A Louvain move step keeps the key list of the assignment. -/
theorem louvainStep_keys (g : AdjGraph) (r : ℚ) (acc : List (String × Nat) × Bool)
    (node : String) :
    ((louvainStep g r acc node).fst).map Prod.fst = acc.fst.map Prod.fst := by
  unfold louvainStep
  dsimp only
  split
  · split
    · exact commSet_keys _ _ _
    · rfl
  · rfl

/-- A full Louvain pass keeps the key list of the assignment. -/
theorem louvainFold_keys (g : AdjGraph) (r : ℚ) (ns : List String) :
    ∀ acc : List (String × Nat) × Bool,
      ((ns.foldl (louvainStep g r) acc).fst).map Prod.fst = acc.fst.map Prod.fst := by
  induction ns with
  | nil => intro acc; rfl
  | cons n t ih =>
    intro acc
    rw [List.foldl_cons, ih (louvainStep g r acc n), louvainStep_keys]

/-- The bounded Louvain loop keeps the key list of the assignment. -/
theorem louvainLoop_keys (g : AdjGraph) (r : ℚ) :
    ∀ (fuel : Nat) (comm : List (String × Nat)),
      (louvainLoop g r fuel comm).map Prod.fst = comm.map Prod.fst := by
  intro fuel
  induction fuel with
  | zero => intro comm; rfl
  | succ n ih =>
    intro comm
    rw [louvainLoop]
    by_cases h : (louvainPass g r comm).snd = true
    · rw [if_pos h, ih]
      exact louvainFold_keys g r g.nodes (comm, false)
    · rw [if_neg h]
      exact louvainFold_keys g r g.nodes (comm, false)

/-- The initial assignment has exactly the graph's nodes as keys. -/
theorem initialCommunities_keys (g : AdjGraph) :
    (initialCommunities g).map Prod.fst = g.nodes := by
  unfold initialCommunities
  rw [List.map_map]
  rw [show (Prod.fst ∘ fun p : Nat × String => (p.snd, p.fst)) = Prod.snd from rfl]
  exact List.enum_map_snd g.nodes

/-- `bucketAdd` on a list whose head key differs from the community id
passes through the head. -/
theorem bucketAdd_cons_ne (p : Nat × List String) (t : List (Nat × List String))
    (cid : Nat) (node : String) (hp : (p.fst == cid) = false) :
    bucketAdd (p :: t) cid node = p :: bucketAdd t cid node := by
  unfold bucketAdd
  rw [List.find?_cons_of_neg _ (by simp [hp])]
  cases hf : t.find? (fun q => q.fst == cid) with
  | none => rfl
  | some q =>
    simp only [List.map_cons, hp]
    rfl

/-- `bucketAdd` never changes the key list or appends exactly the new
community id. -/
theorem bucketAdd_keys (b : List (Nat × List String)) (cid : Nat) (node : String) :
    (bucketAdd b cid node).map Prod.fst = b.map Prod.fst ∨
    ((bucketAdd b cid node).map Prod.fst = b.map Prod.fst ++ [cid] ∧
      cid ∉ b.map Prod.fst) := by
  unfold bucketAdd
  cases hf : b.find? (fun q => q.fst == cid) with
  | some q =>
    left
    rw [List.map_map]
    apply List.map_congr_left
    intro p _
    show (if (p.fst == cid) = true then (p.fst, p.snd ++ [node]) else p).fst = p.fst
    split <;> rfl
  | none =>
    right
    constructor
    · simp
    · intro hmem
      rcases List.mem_map.mp hmem with ⟨q, hq, hfst⟩
      have := List.find?_eq_none.mp hf q hq
      simp [hfst] at this

/-- `bucketAdd` keeps the key list duplicate-free. -/
theorem bucketAdd_keys_nodup (b : List (Nat × List String)) (cid : Nat) (node : String)
    (h : (b.map Prod.fst).Nodup) : ((bucketAdd b cid node).map Prod.fst).Nodup := by
  rcases bucketAdd_keys b cid node with hk | ⟨hk, hnm⟩
  · rw [hk]; exact h
  · rw [hk]
    refine List.Nodup.append h (List.nodup_singleton cid) ?_
    intro a ha hax
    rw [List.mem_singleton] at hax
    subst hax
    exact hnm ha

/-- `bucketAdd` appends exactly the new node to the multiset of bucketed
files (up to permutation), provided keys are unique. -/
theorem bucketAdd_files (cid : Nat) (node : String) :
    ∀ b : List (Nat × List String), (b.map Prod.fst).Nodup →
      (((bucketAdd b cid node).map Prod.snd).flatten).Perm
        (((b.map Prod.snd).flatten) ++ [node]) := by
  intro b
  induction b with
  | nil =>
    intro _
    simp [bucketAdd]
  | cons p t ih =>
    intro hnd
    rw [List.map_cons] at hnd
    by_cases hp : (p.fst == cid) = true
    · have hfind : (p :: t).find? (fun q => q.fst == cid) = some p :=
        List.find?_cons_of_pos _ hp
      unfold bucketAdd
      rw [hfind]
      have hcid : p.fst = cid := by simpa using hp
      have htid : t.map (fun q =>
          if (q.fst == cid) = true then (q.fst, q.snd ++ [node]) else q) = t := by
        have hqs : ∀ q ∈ t,
            (if (q.fst == cid) = true then (q.fst, q.snd ++ [node]) else q) = q := by
          intro q hq
          rw [if_neg]
          intro hqc
          have hqe : q.fst = cid := by simpa using hqc
          have hqm : q.fst ∈ t.map Prod.fst := List.mem_map_of_mem Prod.fst hq
          rw [hqe, ← hcid] at hqm
          rw [List.nodup_cons] at hnd
          exact hnd.1 hqm
        calc t.map (fun q =>
              if (q.fst == cid) = true then (q.fst, q.snd ++ [node]) else q)
            = t.map id := List.map_congr_left hqs
          _ = t := List.map_id t
      rw [List.map_cons, if_pos hp, htid]
      simp only [List.map_cons, List.flatten_cons, List.append_assoc]
      exact List.Perm.append_left p.snd List.perm_append_comm
    · rw [bucketAdd_cons_ne p t cid node (by simpa using hp)]
      have htn : (t.map Prod.fst).Nodup := (List.nodup_cons.mp hnd).2
      simp only [List.map_cons, List.flatten_cons, List.append_assoc]
      exact List.Perm.append_left p.snd (ih htn)

/-- The grouping fold: the bucketed files are a permutation of the
accumulated keys, and bucket keys stay unique. -/
theorem group_fold_files (comm : List (String × Nat)) :
    ∀ b : List (Nat × List String), (b.map Prod.fst).Nodup →
      ((((comm.foldl (fun bk p => bucketAdd bk p.snd p.fst) b).map Prod.snd).flatten).Perm
        (((b.map Prod.snd).flatten) ++ comm.map Prod.fst) ∧
      (((comm.foldl (fun bk p => bucketAdd bk p.snd p.fst) b).map Prod.fst)).Nodup) := by
  induction comm with
  | nil =>
    intro b hb
    exact ⟨by simp, hb⟩
  | cons p t ih =>
    intro b hb
    rw [List.foldl_cons]
    obtain ⟨hperm, hnd⟩ := ih (bucketAdd b p.snd p.fst) (bucketAdd_keys_nodup b p.snd p.fst hb)
    refine ⟨?_, hnd⟩
    refine hperm.trans ?_
    have h1 := bucketAdd_files p.snd p.fst b hb
    have h2 := h1.append_right (t.map Prod.fst)
    refine h2.trans ?_
    rw [List.map_cons, List.append_assoc]
    exact List.Perm.refl _

/-- `groupCommunitiesById` buckets exactly the assignment's keys. -/
theorem groupCommunitiesById_files (comm : List (String × Nat)) :
    (((groupCommunitiesById comm).map Prod.snd).flatten).Perm (comm.map Prod.fst) := by
  have := (group_fold_files comm [] (by simp)).1
  simpa [groupCommunitiesById] using this

/-- `detectCommunities` partitions exactly the graph's node list. -/
theorem detectCommunities_files (g : AdjGraph) (r : ℚ) :
    (((detectCommunities g r).map Prod.snd).flatten).Perm g.nodes := by
  unfold detectCommunities
  refine (groupCommunitiesById_files _).trans ?_
  rw [louvainLoop_keys, initialCommunities_keys]

/-- `mergeToTarget` preserves the multiset of files exactly. -/
theorem mergeToTarget_files (sorted : List (Nat × List String)) (t m : Nat) :
    ((mergeToTarget sorted t m).map Prod.snd).flatten =
      ((sorted.map Prod.snd).flatten) := by
  unfold mergeToTarget
  have henum : ((sorted.take (t - 1)).enum.map
      (fun p => (s!"c{p.fst}", p.snd.snd))).map Prod.snd =
      (sorted.take (t - 1)).map Prod.snd := by
    rw [List.map_map]
    rw [show (Prod.snd ∘ fun p : Nat × (Nat × List String) => (s!"c{p.fst}", p.snd.snd)) =
      (Prod.snd ∘ Prod.snd) from rfl]
    rw [← List.map_map, List.enum_map_snd]
  by_cases hm : (((sorted.drop (t - 1)).map Prod.snd).flatten).isEmpty = true
  · rw [if_pos hm]
    have hm2 : ((sorted.drop (t - 1)).map Prod.snd).flatten = [] :=
      List.isEmpty_iff.mp hm
    conv_rhs => rw [← List.take_append_drop (t - 1) sorted]
    rw [List.map_append, List.flatten_append, hm2, List.append_nil, henum]
  · rw [if_neg hm]
    conv_rhs => rw [← List.take_append_drop (t - 1) sorted]
    simp only [List.map_append, List.flatten_append, henum]
    simp

/-- The standard optimization fold preserves the multiset of files split
between kept clusters and pending `misc` files. -/
theorem optFold_files (m maxc : Nat) (l : List (Nat × List String)) :
    ∀ st : OptState,
      ((((l.foldl (optStep maxc m) st).optimized.map Prod.snd).flatten) ++
        (l.foldl (optStep maxc m) st).miscFiles).Perm
      ((((st.optimized.map Prod.snd).flatten) ++ st.miscFiles) ++
        ((l.map Prod.snd).flatten)) := by
  induction l with
  | nil =>
    intro st
    simp
  | cons p t ih =>
    intro st
    rw [List.foldl_cons]
    refine (ih (optStep maxc m st p)).trans ?_
    unfold optStep
    by_cases hc : m ≤ p.snd.length ∧ st.optimized.length < maxc - 1
    · rw [if_pos hc]
      dsimp only
      simp only [List.map_cons, List.flatten_cons, List.map_append, List.flatten_append,
        List.map_nil, List.flatten_nil, List.append_nil, List.append_assoc]
      exact List.Perm.append_left _ (List.perm_append_comm_assoc _ _ _)
    · rw [if_neg hc]
      dsimp only
      simp only [List.map_cons, List.flatten_cons, List.append_assoc]
      exact List.Perm.refl _

/-- `optimizeClusters` preserves the multiset of files. -/
theorem optimizeClusters_files (comm : List (Nat × List String)) (t maxc m : Nat) :
    (((optimizeClusters comm t maxc m).map Prod.snd).flatten).Perm
      ((comm.map Prod.snd).flatten) := by
  have hsort : ((comm.insertionSort sizeGE).map Prod.snd).flatten.Perm
      ((comm.map Prod.snd).flatten) :=
    ((List.perm_insertionSort sizeGE comm).map Prod.snd).flatten
  unfold optimizeClusters
  by_cases hl : maxc < (comm.insertionSort sizeGE).length
  · rw [if_pos hl]
    rw [mergeToTarget_files]
    exact hsort
  · rw [if_neg hl]
    have hfold := optFold_files m maxc (comm.insertionSort sizeGE) ⟨[], [], 0⟩
    simp only [List.map_nil, List.flatten_nil, List.append_nil, List.nil_append] at hfold
    by_cases hm : ((comm.insertionSort sizeGE).foldl (optStep maxc m)
        ⟨[], [], 0⟩).miscFiles.isEmpty = true
    · rw [if_pos hm]
      have hm2 := List.isEmpty_iff.mp hm
      rw [hm2, List.append_nil] at hfold
      exact hfold.trans hsort
    · rw [if_neg hm]
      refine List.Perm.trans ?_ (hfold.trans hsort)
      simp [List.map_append, List.flatten_append]

/-- **C2** (confirmed).  The cluster assignment produced by the
community-detection branch of super-graph generation is a partition of the
adjacency graph's file-node set: a file belongs to some cluster exactly
when it is a node, and the clusters are pairwise disjoint (residual files
being absorbed into the `misc` cluster by `optimizeClusters`). -/
theorem c2_clusters_partition (gd : GraphData) :
    (∀ f, (∃ c ∈ superGraphCommunities gd, f ∈ c.snd) ↔
      f ∈ (buildAdjacencyGraph gd).nodes) ∧
    List.Pairwise (fun c d : String × List String => ∀ f, f ∈ c.snd → f ∉ d.snd)
      (superGraphCommunities gd) := by
  have hperm : (((superGraphCommunities gd).map Prod.snd).flatten).Perm
      (buildAdjacencyGraph gd).nodes := by
    unfold superGraphCommunities
    exact (optimizeClusters_files _ _ _ _).trans (detectCommunities_files _ _)
  have hnd : (((superGraphCommunities gd).map Prod.snd).flatten).Nodup :=
    hperm.nodup_iff.mpr (buildAdj_nodes_nodup gd)
  constructor
  · intro f
    constructor
    · rintro ⟨c, hc, hf⟩
      refine hperm.mem_iff.mp ?_
      rw [List.mem_flatten]
      exact ⟨c.snd, List.mem_map_of_mem Prod.snd hc, hf⟩
    · intro hf
      have := hperm.mem_iff.mpr hf
      rw [List.mem_flatten] at this
      obtain ⟨l, hl, hfl⟩ := this
      obtain ⟨c, hc, rfl⟩ := List.mem_map.mp hl
      exact ⟨c, hc, hfl⟩
  · have hdis := (List.nodup_flatten.mp hnd).2
    have := (List.pairwise_map.mp hdis)
    refine this.imp ?_
    intro c d hcd f hfc hfd
    exact hcd hfc hfd

/-- The standard optimization fold keeps at most `maxClusters - 1`
clusters. -/
theorem optFold_length (maxc m : Nat) (l : List (Nat × List String)) :
    ∀ st : OptState, (l.foldl (optStep maxc m) st).optimized.length ≤
      max st.optimized.length (maxc - 1) := by
  induction l with
  | nil => intro st; exact le_max_left _ _
  | cons p t ih =>
    intro st
    rw [List.foldl_cons]
    refine le_trans (ih (optStep maxc m st p)) ?_
    unfold optStep
    by_cases hc : m ≤ p.snd.length ∧ st.optimized.length < maxc - 1
    · rw [if_pos hc]
      dsimp only
      rw [List.length_append]
      refine max_le ?_ (le_max_right _ _)
      refine le_trans ?_ (le_max_right _ _)
      have := hc.2
      simp only [List.length_cons, List.length_nil]
      omega
    · rw [if_neg hc]

/-- `mergeToTarget` returns at most `targetClusters` clusters. -/
theorem mergeToTarget_length (sorted : List (Nat × List String)) (t m : Nat)
    (ht : 1 ≤ t) : (mergeToTarget sorted t m).length ≤ t := by
  unfold mergeToTarget
  by_cases hm : (((sorted.drop (t - 1)).map Prod.snd).flatten).isEmpty = true
  · rw [if_pos hm]
    rw [List.length_map, List.enum_length, List.length_take]
    omega
  · rw [if_neg hm]
    rw [List.length_append, List.length_map, List.enum_length, List.length_take]
    simp only [List.length_cons, List.length_nil]
    omega

/-- `optimizeClusters` returns at most `max targetClusters maxClusters`
clusters. -/
theorem optimizeClusters_length (comm : List (Nat × List String)) (t maxc m : Nat)
    (ht : 1 ≤ t) :
    (optimizeClusters comm t maxc m).length ≤ max t maxc := by
  unfold optimizeClusters
  by_cases hl : maxc < (comm.insertionSort sizeGE).length
  · rw [if_pos hl]
    exact le_trans (mergeToTarget_length _ _ _ ht) (le_max_left _ _)
  · rw [if_neg hl]
    have hopt := optFold_length maxc m (comm.insertionSort sizeGE) ⟨[], [], 0⟩
    simp only [List.length_nil, Nat.zero_max] at hopt
    by_cases hm : ((comm.insertionSort sizeGE).foldl (optStep maxc m)
        ⟨[], [], 0⟩).miscFiles.isEmpty = true
    · rw [if_pos hm]
      refine le_trans hopt ?_
      refine le_trans ?_ (le_max_right _ _)
      omega
    · rw [if_neg hm]
      rw [List.length_append]
      simp only [List.length_cons, List.length_nil]
      rcases Nat.eq_zero_or_pos maxc with h0 | h1
      · subst h0
        simp only [Nat.zero_sub, Nat.le_zero] at hopt
        rw [hopt]
        refine le_trans ?_ (le_max_left _ _)
        omega
      · refine le_trans ?_ (le_max_right _ _)
        omega

/-- **C6** (amended).  The number of clusters produced by the
community-detection branch (named clusters plus `misc`) never exceeds
`max T M` where `T = max(⌈N/100⌉, 5)` and `M = min(2T, 50)` — hence never
exceeds 50 whenever `T ≤ 50`, i.e. for repositories of at most 5000 files;
for more than 5000 files the merge branch can produce `T > 50` clusters
(see the counterexample). -/
theorem c6_cluster_count_bound (gd : GraphData) :
    (superGraphCommunities gd).length ≤
      max (targetClustersFor (buildAdjacencyGraph gd).nodes.length)
        (maxClustersFor (buildAdjacencyGraph gd).nodes.length) := by
  unfold superGraphCommunities
  refine optimizeClusters_length _ _ _ _ ?_
  unfold targetClustersFor
  exact le_trans (by omega) (Nat.le_max_right _ 5)

/-- The isolated-repository file names are truthy. -/
theorem jsTruthy_isoName (i : Nat) : jsTruthy (isoName i) = true := by
  unfold jsTruthy isoName
  have : String.mk (List.replicate (i + 1) 'a') ≠ "" := by
    intro h
    have := congrArg String.data h
    simp at this
  simpa using this

/-- The isolated-repository file names are pairwise distinct. -/
theorem isoName_injective : Function.Injective isoName := by
  intro i j h
  unfold isoName at h
  have := congrArg (fun s => s.data.length) h
  simpa using this

/-- Collecting fresh truthy file names appends them unchanged. -/
theorem foldl_fileAddStep_fresh (names : List String) :
    ∀ acc : List String, (∀ x ∈ names, jsTruthy x = true) → (acc ++ names).Nodup →
      ((names.map (fun f => ({ file := some f } : GNode))).foldl fileAddStep acc) =
        acc ++ names := by
  induction names with
  | nil => intro acc _ _; simp
  | cons f t ih =>
    intro acc htr hnd
    rw [List.map_cons, List.foldl_cons]
    have hfn : f ∉ acc := by
      intro hf
      rcases List.nodup_append.mp hnd with ⟨_, _, hdis⟩
      exact hdis hf (List.mem_cons_self f t)
    have hstep : fileAddStep acc { file := some f } = acc ++ [f] := by
      show (match some f with
        | some f => if jsTruthy f = true then setAdd acc f else acc
        | none => acc) = acc ++ [f]
      rw [show (match some f with
          | some f => if jsTruthy f = true then setAdd acc f else acc
          | none => acc) = if jsTruthy f = true then setAdd acc f else acc from rfl]
      rw [if_pos (htr f (List.mem_cons_self f t))]
      unfold setAdd
      rw [if_neg (fun hc => hfn (List.mem_of_elem_eq_true hc))]
    rw [hstep]
    rw [ih (acc ++ [f]) (fun x hx => htr x (List.mem_cons_of_mem f hx))
      (by simpa [List.append_assoc] using hnd)]
    simp

/-- The adjacency graph of the isolated repository: the distinct file
names as nodes, no adjacency. -/
theorem buildAdj_isolated (n : Nat) :
    buildAdjacencyGraph (isolatedGraphData n) =
      { nodes := (List.range n).map isoName, adj := [] } := by
  unfold buildAdjacencyGraph isolatedGraphData
  dsimp only
  have hmm : (List.range n).map (fun i => ({ file := some (isoName i) } : GNode)) =
      ((List.range n).map isoName).map (fun f => ({ file := some f } : GNode)) := by
    rw [List.map_map]
    rfl
  rw [hmm, foldl_fileAddStep_fresh ((List.range n).map isoName) []
    (fun x hx => by
      rcases List.mem_map.mp hx with ⟨i, _, rfl⟩
      exact jsTruthy_isoName i)
    (by
      simp only [List.nil_append]
      exact (List.nodup_range n).map isoName_injective)]
  rfl

/-- With no adjacency, a Louvain step does nothing. -/
theorem louvainStep_no_adj (g : AdjGraph) (hadj : g.adj = []) (r : ℚ)
    (acc : List (String × Nat) × Bool) (node : String) :
    louvainStep g r acc node = acc := by
  unfold louvainStep
  rw [hadj]
  rfl

/-- With no adjacency, folding Louvain steps changes nothing. -/
theorem foldl_louvainStep_no_adj (g : AdjGraph) (hadj : g.adj = []) (r : ℚ)
    (l : List String) :
    ∀ acc : List (String × Nat) × Bool, l.foldl (louvainStep g r) acc = acc := by
  induction l with
  | nil => intro acc; rfl
  | cons x t ih =>
    intro acc
    rw [List.foldl_cons, louvainStep_no_adj g hadj r acc x]
    exact ih acc

/-- With no adjacency, a Louvain pass reports no improvement. -/
theorem louvainPass_no_adj (g : AdjGraph) (hadj : g.adj = []) (r : ℚ)
    (comm : List (String × Nat)) :
    louvainPass g r comm = (comm, false) := by
  unfold louvainPass
  exact foldl_louvainStep_no_adj g hadj r g.nodes (comm, false)

/-- With no adjacency, the Louvain loop stops after the first pass. -/
theorem louvainLoop_no_adj (g : AdjGraph) (hadj : g.adj = []) (r : ℚ)
    (fuel : Nat) (comm : List (String × Nat)) :
    louvainLoop g r (fuel + 1) comm = comm := by
  rw [louvainLoop, louvainPass_no_adj g hadj r comm]
  simp

/-- Grouping an assignment with pairwise-distinct community ids appends
one singleton bucket per entry. -/
theorem group_fold_fresh (comm : List (String × Nat)) :
    ∀ b : List (Nat × List String),
      (∀ p ∈ comm, p.snd ∉ b.map Prod.fst) → (comm.map Prod.snd).Nodup →
      comm.foldl (fun bk p => bucketAdd bk p.snd p.fst) b =
        b ++ comm.map (fun p => (p.snd, [p.fst])) := by
  induction comm with
  | nil => intro b _ _; simp
  | cons p t ih =>
    intro b hfresh hnd
    rw [List.foldl_cons]
    have hb : bucketAdd b p.snd p.fst = b ++ [(p.snd, [p.fst])] := by
      unfold bucketAdd
      rw [List.find?_eq_none.mpr]
      intro q hq
      simp only [Bool.not_eq_true]
      have : q.fst ∈ b.map Prod.fst := List.mem_map_of_mem Prod.fst hq
      cases hqe : (q.fst == p.snd) with
      | false => rfl
      | true =>
        exfalso
        have : p.snd ∈ b.map Prod.fst := by
          have he : q.fst = p.snd := by simpa using hqe
          rw [← he]
          exact this
        exact hfresh p (List.mem_cons_self p t) this
    rw [hb]
    rw [ih (b ++ [(p.snd, [p.fst])]) ?_ ?_]
    · simp
    · intro q hq
      rw [List.map_append]
      intro hmem
      rcases List.mem_append.mp hmem with hm | hm
      · exact hfresh q (List.mem_cons_of_mem p hq) hm
      · simp only [List.map_cons, List.map_nil, List.mem_singleton] at hm
        rw [List.map_cons] at hnd
        rcases List.nodup_cons.mp hnd with ⟨hp, _⟩
        exact hp (hm ▸ List.mem_map_of_mem Prod.snd hq)
    · rw [List.map_cons] at hnd
      exact (List.nodup_cons.mp hnd).2

/-- The communities detected in an adjacency-free graph are the per-node
singletons, in node order with the initial ids. -/
theorem detectCommunities_isolated (g : AdjGraph) (hadj : g.adj = []) (r : ℚ) :
    detectCommunities g r = g.nodes.enum.map (fun p => (p.fst, [p.snd])) := by
  unfold detectCommunities
  rw [show (10 : Nat) = 9 + 1 from rfl, louvainLoop_no_adj g hadj r 9]
  unfold groupCommunitiesById initialCommunities
  rw [group_fold_fresh _ [] (by simp) ?_]
  · rw [List.nil_append, List.map_map]
    rfl
  · rw [List.map_map]
    rw [show (Prod.snd ∘ fun p : Nat × String => (p.snd, p.fst)) = Prod.fst from rfl]
    rw [List.enum_map_fst]
    exact List.nodup_range _

/-- Flattening singleton buckets recovers the underlying list. -/
theorem flatten_map_singleton {α β : Type} (g : α → β) (l : List α) :
    (l.map (fun x => [g x])).flatten = l.map g := by
  induction l with
  | nil => rfl
  | cons x t ih => simp [ih]

/-- A list of communities that all have the same size is already sorted
for the size comparator. -/
theorem insertionSort_sizeGE_of_const (l : List (Nat × List String))
    (h : ∀ p ∈ l, p.snd.length = 1) : l.insertionSort sizeGE = l := by
  apply List.Sorted.insertionSort_eq
  apply List.pairwise_of_forall_mem_list
  intro a ha b hb
  unfold sizeGE
  rw [h a ha, h b hb]

set_option maxRecDepth 4000 in
/-- **C6** (counterexample).  A repository of 5001 mutually disconnected
files has `T = ⌈5001/100⌉ = 51` and `M = min(2·51, 50) = 50`; community
detection yields 5001 singleton communities, so the merge branch keeps
`T − 1 = 50` clusters plus `misc` — 51 clusters, exceeding the claimed
absolute ceiling of 50. -/
theorem c6_counterexample :
    (superGraphCommunities (isolatedGraphData 5001)).length = 51 ∧
    ¬ ((superGraphCommunities (isolatedGraphData 5001)).length ≤ 50) := by
  have hlen : (superGraphCommunities (isolatedGraphData 5001)).length = 51 := by
    unfold superGraphCommunities
    rw [buildAdj_isolated 5001]
    dsimp only
    rw [detectCommunities_isolated _ rfl]
    dsimp only
    have hlen5001 : ((List.range 5001).map isoName).length = 5001 := by
      rw [List.length_map, List.length_range]
    rw [hlen5001]
    have hT : targetClustersFor 5001 = 51 := by decide
    have hM : maxClustersFor 5001 = 50 := by decide
    rw [hT, hM]
    set comm := ((List.range 5001).map isoName).enum.map
      (fun p => (p.fst, [p.snd])) with hcomm
    have hconst : ∀ p ∈ comm, p.snd.length = 1 := by
      intro p hp
      rcases List.mem_map.mp hp with ⟨q, _, rfl⟩
      rfl
    have hcommlen : comm.length = 5001 := by
      rw [hcomm, List.length_map, List.enum_length, List.length_map, List.length_range]
    unfold optimizeClusters
    rw [insertionSort_sizeGE_of_const comm hconst]
    rw [if_pos (by rw [hcommlen]; omega)]
    unfold mergeToTarget
    have hdrop : ((comm.drop (51 - 1)).map Prod.snd).flatten =
        (((List.range 5001).map isoName).enum.drop 50).map Prod.snd := by
      rw [hcomm]
      rw [← List.map_drop]
      rw [List.map_map]
      rw [show (Prod.snd ∘ fun p : Nat × String => (p.fst, [p.snd])) =
        (fun p : Nat × String => [p.snd]) from rfl]
      exact flatten_map_singleton _ _
    rw [if_neg ?_]
    · rw [List.length_append, List.length_map, List.enum_length, List.length_take,
        hcommlen]
      rfl
    · rw [hdrop]
      intro hemp
      have := List.isEmpty_iff.mp hemp
      have hl := congrArg List.length this
      rw [List.length_map, List.length_drop, List.enum_length, List.length_map,
        List.length_range] at hl
      simp at hl
  exact ⟨hlen, by rw [hlen]; omega⟩

/-! ### Hot-path lemmas (claim C8) -/

/-- Every path collected by the bounded DFS of `findPathsFromNode` extends
the current path, has length between 2 and the cap, visits no node twice,
and follows graph edges. -/
theorem dfsPaths_spec (g : Graph) (maxLength : Nat) :
    ∀ (fuel : Nat) (visited currentPath : List String) (node : String) (p : List String),
      (∀ x, x ∈ visited ↔ x ∈ currentPath) →
      currentPath.Nodup →
      List.Chain' (edgeRelOf g) currentPath →
      currentPath.length ≤ maxLength →
      (currentPath = [] ∨ ∃ l, currentPath.getLast? = some l ∧ edgeRelOf g l node) →
      p ∈ dfsPaths g maxLength fuel visited currentPath node →
      (2 ≤ p.length ∧ p.length ≤ maxLength ∧ p.Nodup ∧
        List.Chain' (edgeRelOf g) p ∧
        (p = currentPath ∨ ∃ ext, p = currentPath ++ node :: ext)) := by
  intro fuel
  induction fuel with
  | zero => intro _ _ _ p _ _ _ _ _ hp; cases hp
  | succ n ih =>
    intro visited currentPath node p hvis hnd hch hlen hlast hp
    rw [dfsPaths] at hp
    cases hcb : (decide (maxLength ≤ currentPath.length) || visited.contains node) with
    | true =>
      rw [if_pos hcb] at hp
      by_cases h2 : 1 < currentPath.length
      · rw [if_pos (by simpa using h2)] at hp
        rw [List.mem_singleton] at hp
        subst hp
        exact ⟨h2, hlen, hnd, hch, Or.inl rfl⟩
      · rw [if_neg (by simpa using h2)] at hp
        cases hp
    | false =>
      rw [if_neg (by rw [hcb]; simp)] at hp
      have hbo := Bool.or_eq_false_iff.mp hcb
      have hblen : currentPath.length < maxLength := by
        have := of_decide_eq_false hbo.1
        omega
      have hbvis : node ∉ visited := by
        intro hmem
        have hcv : visited.contains node = true := List.elem_eq_true_of_mem hmem
        rw [hbo.2] at hcv
        cases hcv
      have hnode_not : node ∉ currentPath := fun hmem => hbvis ((hvis node).mpr hmem)
      rw [List.mem_flatten] at hp
      obtain ⟨l, hl, hpl⟩ := hp
      rw [List.mem_map] at hl
      obtain ⟨e, he, rfl⟩ := hl
      have hev : e.v = node := by
        have := List.of_mem_filter he
        simpa using this
      have heg : e ∈ g.edges := List.mem_of_mem_filter he
      have hrel : edgeRelOf g node e.w := ⟨e, heg, hev, rfl⟩
      have hres := ih (visited ++ [node]) (currentPath ++ [node]) e.w p
        (by
          intro x
          simp only [List.mem_append, List.mem_singleton]
          rw [hvis x])
        (by
          rw [List.nodup_append]
          exact ⟨hnd, List.nodup_singleton node,
            fun a ha hax => hnode_not ((List.mem_singleton.mp hax) ▸ ha)⟩)
        (by
          rw [List.chain'_append]
          refine ⟨hch, List.chain'_singleton node, ?_⟩
          intro x hx y hy
          rw [List.head?_cons, Option.mem_some_iff] at hy
          subst hy
          rcases hlast with hemp | ⟨l2, hl2, hrel2⟩
          · subst hemp
            simp at hx
          · rw [hl2, Option.mem_some_iff] at hx
            subst hx
            exact hrel2)
        (by rw [List.length_append, List.length_singleton]; omega)
        (by
          right
          refine ⟨node, ?_, hrel⟩
          rw [List.getLast?_concat])
        hpl
      obtain ⟨h2, hlen2, hnd2, hch2, hext⟩ := hres
      refine ⟨h2, hlen2, hnd2, hch2, Or.inr ?_⟩
      rcases hext with rfl | ⟨ext, rfl⟩
      · exact ⟨[], by simp⟩
      · exact ⟨e.w :: ext, by simp⟩

/-- **C8** (amended).  Every hot path returned by `findHotPaths` comes
from one of the service's graphs, has between 2 and 3 nodes, is a simple
edge-path of that graph starting at a node of total degree at least 3, and
carries its length as weight; at most 10 paths are returned.  (Contrary to
the original claim, only the top five hot nodes per graph seed the DFS,
only blocked DFS extensions are collected — dead-end paths are dropped,
see the counterexample — and the returned prefix of 10 paths is in
discovery order, not ranked by length.) -/
theorem c8_hot_paths_properties (svc : Service) (hp : HotPath)
    (hmem : hp ∈ findHotPaths svc) :
    (findHotPaths svc).length ≤ 10 ∧
    hp.weight = hp.path.length ∧
    ∃ g, (hp.language, g) ∈ svc ∧
      2 ≤ hp.path.length ∧ hp.path.length ≤ 3 ∧
      (hp.path.map PathNode.id).Nodup ∧
      List.Chain' (edgeRelOf g) (hp.path.map PathNode.id) ∧
      ∃ start, (hp.path.map PathNode.id).head? = some start ∧
        3 ≤ nodeDegree g start := by
  refine ⟨List.length_take_le 10 _, ?_⟩
  unfold findHotPaths at hmem
  have hmem2 := List.mem_of_mem_take hmem
  rw [List.mem_flatten] at hmem2
  obtain ⟨gl, hgl, hhp⟩ := hmem2
  rw [List.mem_map] at hgl
  obtain ⟨lg, hlg, rfl⟩ := hgl
  rw [List.mem_flatten] at hhp
  obtain ⟨pl, hpl, hhp2⟩ := hhp
  rw [List.mem_map] at hpl
  obtain ⟨hn, hhn, rfl⟩ := hpl
  rw [List.mem_map] at hhp2
  obtain ⟨path, hpath, rfl⟩ := hhp2
  have hdeg : 2 < hn.degree ∧ hn.degree = nodeDegree lg.snd hn.id := by
    have hhn2 := List.mem_of_mem_take hhn
    have hhn3 := (List.perm_insertionSort degGE _).mem_iff.mp hhn2
    have hfilt := List.of_mem_filter hhn3
    have hmem4 := List.mem_of_mem_filter hhn3
    rw [List.mem_map] at hmem4
    obtain ⟨q, _, rfl⟩ := hmem4
    exact ⟨by simpa using hfilt, rfl⟩
  have hspec := dfsPaths_spec lg.snd 3 4 [] [] hn.id path
    (by intro x; rfl) List.nodup_nil List.chain'_nil (by simp) (Or.inl rfl) hpath
  obtain ⟨h2, h3, hnd, hch, hext⟩ := hspec
  have hids : (path.map (fun nid =>
      ({ id := nid, file := (jsNode lg.snd nid).bind NodeData.file,
         type := (jsNode lg.snd nid).map NodeData.type } : PathNode))).map PathNode.id =
      path := by
    rw [List.map_map]
    exact List.map_id path
  constructor
  · dsimp only
    rw [List.length_map]
  refine ⟨lg.snd, ?_, ?_⟩
  · dsimp only
    rcases lg with ⟨lang, g⟩
    exact hlg
  dsimp only
  rw [hids, List.length_map]
  refine ⟨h2, h3, hnd, hch, ?_⟩
  rcases hext with rfl | ⟨ext, rfl⟩
  · simp at h2
  · obtain ⟨hd1, hd2⟩ := hdeg
    refine ⟨hn.id, by simp, ?_⟩
    omega

/-- **C8** witness: the amended theorem applied to a concrete hot path of
the cyclic example graph. -/
theorem c8_witness :
    (findHotPaths exSvcCyc).length ≤ 10 ∧
    exHotPath.weight = exHotPath.path.length ∧
    ∃ g, (exHotPath.language, g) ∈ exSvcCyc ∧
      2 ≤ exHotPath.path.length ∧ exHotPath.path.length ≤ 3 ∧
      (exHotPath.path.map PathNode.id).Nodup ∧
      List.Chain' (edgeRelOf g) (exHotPath.path.map PathNode.id) ∧
      ∃ start, (exHotPath.path.map PathNode.id).head? = some start ∧
        3 ≤ nodeDegree g start :=
  c8_hot_paths_properties exSvcCyc exHotPath (by decide)

/-! ### Cycle-detection lemmas (claim C5) -/

/-- Filtering with a weaker predicate keeps at least as many elements. -/
theorem filter_length_mono {α : Type} (p q : α → Bool) (l : List α)
    (h : ∀ a ∈ l, p a = true → q a = true) :
    (l.filter p).length ≤ (l.filter q).length := by
  induction l with
  | nil => exact le_refl _
  | cons a t ih =>
    have iht := ih (fun x hx => h x (List.mem_cons_of_mem a hx))
    by_cases hp : p a = true
    · rw [List.filter_cons_of_pos hp,
        List.filter_cons_of_pos (h a (List.mem_cons_self a t) hp)]
      simpa using iht
    · rw [List.filter_cons_of_neg (by simpa using hp)]
      by_cases hq : q a = true
      · rw [List.filter_cons_of_pos hq]
        exact le_trans iht (by simp)
      · rw [List.filter_cons_of_neg (by simpa using hq)]
        exact iht

/-- Filtering with a strictly weaker predicate (witnessed at a member)
keeps strictly more elements. -/
theorem filter_length_lt {α : Type} (p q : α → Bool) (l : List α) (x : α)
    (hx : x ∈ l) (hpx : p x = false) (hqx : q x = true)
    (himp : ∀ a ∈ l, p a = true → q a = true) :
    (l.filter p).length < (l.filter q).length := by
  induction l with
  | nil => cases hx
  | cons a t ih =>
    have hmono : (t.filter p).length ≤ (t.filter q).length :=
      filter_length_mono p q t (fun y hy => himp y (List.mem_cons_of_mem a hy))
    by_cases hqa : q a = true
    · rw [List.filter_cons_of_pos hqa]
      by_cases hpa : p a = true
      · rw [List.filter_cons_of_pos hpa]
        have hxt : x ∈ t := by
          rcases List.mem_cons.mp hx with rfl | hxt
          · simp [hpa] at hpx
          · exact hxt
        have := ih hxt (fun y hy => himp y (List.mem_cons_of_mem a hy))
        simpa using this
      · rw [List.filter_cons_of_neg (by simpa using hpa)]
        simp only [List.length_cons]
        omega
    · have hpa : p a = false := by
        cases hp2 : p a with
        | false => rfl
        | true => exact absurd (himp a (List.mem_cons_self a t) hp2) (by simp [hqa])
      rw [List.filter_cons_of_neg (by simp [hpa]),
        List.filter_cons_of_neg (by simp [hqa])]
      have hxt : x ∈ t := by
        rcases List.mem_cons.mp hx with rfl | hxt
        · exact absurd hqx hqa
        · exact hxt
      exact ih hxt (fun y hy => himp y (List.mem_cons_of_mem a hy))

/-- The instrumented cycle recorder projects onto the real one. -/
theorem recordCycleI_proj (st : CycStateI) (node : String) :
    projI (recordCycleI st node) = recordCycle (projI st) node := by
  unfold recordCycleI recordCycle projI
  dsimp only
  split
  · rfl
  · rfl

/-- The instrumented DFS projects onto the real DFS. -/
theorem dfsCycI_proj (g : Graph) :
    ∀ (fuel : Nat) (node : String) (st : CycStateI),
      (dfsCycI g fuel node st).map projI = dfsCyc g fuel node (projI st) := by
  intro fuel
  induction fuel with
  | zero => intro node st; rfl
  | succ n ih =>
    intro node st
    rw [dfsCycI, dfsCyc]
    by_cases hr : st.recStack.contains node = true
    · rw [if_pos (show (projI st).recStack.contains node = true from hr), if_pos hr]
      rw [Option.map_some']
      rw [recordCycleI_proj]
    · rw [if_neg (show ¬ (projI st).recStack.contains node = true from hr),
        if_neg hr]
      by_cases hv : st.visited.contains node = true
      · rw [if_pos (show (projI st).visited.contains node = true from hv), if_pos hv]
        rfl
      · rw [if_neg (show ¬ (projI st).visited.contains node = true from hv),
          if_neg hv]
        have hfold : ∀ (es : List Edge) (s : CycStateI),
            ((es.foldlM (fun s e => dfsCycI g n e.w s) s).map projI) =
              es.foldlM (fun s e => dfsCyc g n e.w s) (projI s) := by
          intro es
          induction es with
          | nil => intro s; rfl
          | cons e t ihe =>
            intro s
            rw [List.foldlM_cons, List.foldlM_cons]
            cases hstep : dfsCycI g n e.w s with
            | none =>
              have := ih e.w s
              rw [hstep] at this
              rw [← this]
              rfl
            | some s2 =>
              have := ih e.w s
              rw [hstep] at this
              rw [← this]
              simp only [Option.map_some', Option.some_bind, Option.bind_eq_bind]
              exact ihe s2
        dsimp only
        have hf1 := hfold (outEdges g node)
          ⟨st.visited ++ [node], node :: st.recStack, st.path ++ [node], st.cycles, st.fin⟩
        cases hres : (outEdges g node).foldlM (fun s e => dfsCycI g n e.w s)
            ⟨st.visited ++ [node], node :: st.recStack, st.path ++ [node], st.cycles,
              st.fin⟩ with
        | none =>
          rw [hres] at hf1
          have hf2 : (outEdges g node).foldlM (fun s e => dfsCyc g n e.w s)
              ⟨(projI st).visited ++ [node], node :: (projI st).recStack,
                (projI st).path ++ [node], (projI st).cycles⟩ = none := hf1.symm
          rw [hf2]
          rfl
        | some st2 =>
          rw [hres] at hf1
          have hf2 : (outEdges g node).foldlM (fun s e => dfsCyc g n e.w s)
              ⟨(projI st).visited ++ [node], node :: (projI st).recStack,
                (projI st).path ++ [node], (projI st).cycles⟩ = some (projI st2) :=
            hf1.symm
          rw [hf2]
          rfl

/-- The instrumented top-level run projects onto the real one; in
particular both report the same cycles. -/
theorem cycRunI_cycles (g : Graph) : (cycRunI g).cycles = findCyclesInGraph g := by
  unfold findCyclesInGraph cycRun cycRunI
  have hgen : ∀ (ns : List String) (st : CycStateI),
      projI (ns.foldl (fun st n =>
        if st.visited.contains n then st
        else match dfsCycI g (cycFuel g) n st with
          | some st2 => st2
          | none => st) st) =
      ns.foldl (fun st n =>
        if st.visited.contains n then st
        else match dfsCyc g (cycFuel g) n st with
          | some st2 => st2
          | none => st) (projI st) := by
    intro ns
    induction ns with
    | nil => intro st; rfl
    | cons n t iht =>
      intro st
      rw [List.foldl_cons, List.foldl_cons]
      by_cases hv : st.visited.contains n = true
      · rw [if_pos hv, if_pos (show (projI st).visited.contains n = true from hv)]
        exact iht st
      · rw [if_neg hv, if_neg (show ¬ (projI st).visited.contains n = true from hv)]
        have hp := dfsCycI_proj g (cycFuel g) n st
        cases hres : dfsCycI g (cycFuel g) n st with
        | none =>
          rw [hres] at hp
          rw [← hp]
          exact iht st
        | some st2 =>
          rw [hres] at hp
          rw [← hp]
          exact iht st2
  have := hgen (g.nodes.map Prod.fst) {}
  have hcy := congrArg CycState.cycles this
  exact hcy

/-- The cycle DFS only ever appends to `cycles` and `visited`. -/
theorem dfsCycI_mono (g : Graph) :
    ∀ (fuel : Nat) (node : String) (st st2 : CycStateI),
      dfsCycI g fuel node st = some st2 →
      (∃ t, st2.cycles = st.cycles ++ t) ∧ (∃ t, st2.visited = st.visited ++ t) := by
  intro fuel
  induction fuel with
  | zero => intro node st st2 h; cases h
  | succ n ih =>
    intro node st st2 h
    rw [dfsCycI] at h
    by_cases hr : st.recStack.contains node = true
    · rw [if_pos hr] at h
      cases h
      unfold recordCycleI
      dsimp only
      by_cases hlt : st.path.indexOf node < st.path.length
      · rw [if_pos hlt]
        exact ⟨⟨[st.path.drop (st.path.indexOf node)], rfl⟩, ⟨[], by simp⟩⟩
      · rw [if_neg hlt]
        exact ⟨⟨[], by simp⟩, ⟨[], by simp⟩⟩
    · rw [if_neg hr] at h
      by_cases hv : st.visited.contains node = true
      · rw [if_pos hv] at h
        cases h
        exact ⟨⟨[], by simp⟩, ⟨[], by simp⟩⟩
      · rw [if_neg hv] at h
        dsimp only at h
        have hfold : ∀ (es : List Edge) (s s2 : CycStateI),
            es.foldlM (fun s e => dfsCycI g n e.w s) s = some s2 →
            (∃ t, s2.cycles = s.cycles ++ t) ∧ (∃ t, s2.visited = s.visited ++ t) := by
          intro es
          induction es with
          | nil =>
            intro s s2 hh
            cases hh
            exact ⟨⟨[], by simp⟩, ⟨[], by simp⟩⟩
          | cons e t ihe =>
            intro s s2 hh
            rw [List.foldlM_cons] at hh
            cases hstep : dfsCycI g n e.w s with
            | none => rw [hstep] at hh; cases hh
            | some s1 =>
              rw [hstep] at hh
              simp only [Option.bind_eq_bind, Option.some_bind] at hh
              obtain ⟨⟨t1, ht1⟩, ⟨u1, hu1⟩⟩ := ih e.w s s1 hstep
              obtain ⟨⟨t2, ht2⟩, ⟨u2, hu2⟩⟩ := ihe s1 s2 hh
              exact ⟨⟨t1 ++ t2, by rw [ht2, ht1, List.append_assoc]⟩,
                ⟨u1 ++ u2, by rw [hu2, hu1, List.append_assoc]⟩⟩
        cases hres : (outEdges g node).foldlM (fun s e => dfsCycI g n e.w s)
            ⟨st.visited ++ [node], node :: st.recStack, st.path ++ [node],
              st.cycles, st.fin⟩ with
        | none => rw [hres] at h; cases h
        | some sF =>
          rw [hres] at h
          cases h
          obtain ⟨⟨t1, ht1⟩, ⟨u1, hu1⟩⟩ := hfold _ _ _ hres
          refine ⟨⟨t1, ht1⟩, ⟨[node] ++ u1, ?_⟩⟩
          have hu1' : sF.visited = (st.visited ++ [node]) ++ u1 := hu1
          rw [List.append_assoc] at hu1'
          exact hu1'

/-- Growing the visited list never increases the unvisited count. -/
theorem unvisCount_append_le (g : Graph) (v t : List String) :
    unvisCount g (v ++ t) ≤ unvisCount g v := by
  apply filter_length_mono
  intro a _ ha
  cases hv : v.contains a with
  | false => rfl
  | true =>
    exfalso
    have hmem : a ∈ v := List.mem_of_elem_eq_true hv
    have hvt : (v ++ t).contains a = true :=
      List.elem_eq_true_of_mem (List.mem_append_left _ hmem)
    rw [hvt] at ha
    cases ha

/-- Visiting a fresh universe node strictly decreases the unvisited count. -/
theorem unvisCount_push_lt (g : Graph) (v : List String) (node : String)
    (hu : node ∈ cycUniverse g) (hv : v.contains node = false) :
    unvisCount g (v ++ [node]) < unvisCount g v := by
  apply filter_length_lt _ _ _ node hu
  · have hmem : (v ++ [node]).contains node = true :=
      List.elem_eq_true_of_mem (List.mem_append_right _ (List.mem_singleton.mpr rfl))
    rw [hmem]
    rfl
  · rw [hv]
    rfl
  · intro a _ ha
    cases hva : v.contains a with
    | false => rfl
    | true =>
      exfalso
      have hmem : a ∈ v := List.mem_of_elem_eq_true hva
      have hvt : (v ++ [node]).contains a = true :=
        List.elem_eq_true_of_mem (List.mem_append_left _ hmem)
      rw [hvt] at ha
      cases ha

/-- With fuel exceeding the number of unvisited universe nodes, the
instrumented DFS never runs out. -/
theorem dfsCycI_isSome (g : Graph) :
    ∀ (fuel : Nat) (node : String) (st : CycStateI),
      node ∈ cycUniverse g →
      unvisCount g st.visited < fuel →
      (dfsCycI g fuel node st).isSome = true := by
  intro fuel
  induction fuel with
  | zero => intro node st _ h; exact absurd h (Nat.not_lt_zero _)
  | succ n ih =>
    intro node st hu hfuel
    rw [dfsCycI]
    by_cases hr : st.recStack.contains node = true
    · rw [if_pos hr]; rfl
    · rw [if_neg hr]
      by_cases hv : st.visited.contains node = true
      · rw [if_pos hv]; rfl
      · rw [if_neg hv]
        dsimp only
        have hv' : st.visited.contains node = false := by
          cases h2 : st.visited.contains node with
          | false => rfl
          | true => exact absurd h2 hv
        have hlt : unvisCount g (st.visited ++ [node]) < unvisCount g st.visited :=
          unvisCount_push_lt g st.visited node hu hv'
        have hn : unvisCount g (st.visited ++ [node]) < n := by omega
        have hfold : ∀ (es : List Edge), (∀ e ∈ es, e.w ∈ cycUniverse g) →
            ∀ (s : CycStateI), unvisCount g s.visited < n →
            ∃ s2, es.foldlM (fun s e => dfsCycI g n e.w s) s = some s2 ∧
              unvisCount g s2.visited < n := by
          intro es
          induction es with
          | nil => intro _ s hs; exact ⟨s, rfl, hs⟩
          | cons e t ihe =>
            intro hmem s hs
            have hstep := ih e.w s (hmem e (List.mem_cons_self e t)) hs
            cases hres : dfsCycI g n e.w s with
            | none => rw [hres] at hstep; cases hstep
            | some s1 =>
              obtain ⟨_, ⟨u, hu1⟩⟩ := dfsCycI_mono g n e.w s s1 hres
              have hs1 : unvisCount g s1.visited < n := by
                rw [hu1]
                exact lt_of_le_of_lt (unvisCount_append_le g s.visited u) hs
              obtain ⟨s2, hs2, hlt2⟩ :=
                ihe (fun x hx => hmem x (List.mem_cons_of_mem e hx)) s1 hs1
              refine ⟨s2, ?_, hlt2⟩
              rw [List.foldlM_cons, hres]
              simpa [Option.bind_eq_bind, Option.some_bind] using hs2
        have hedges : ∀ e ∈ outEdges g node, e.w ∈ cycUniverse g := by
          intro e he
          have heg : e ∈ g.edges := List.mem_of_mem_filter he
          exact List.mem_append_right _ (List.mem_map_of_mem Edge.w heg)
        obtain ⟨s2, hs2, _⟩ := hfold (outEdges g node) hedges
          ⟨st.visited ++ [node], node :: st.recStack, st.path ++ [node],
            st.cycles, st.fin⟩ hn
        rw [hs2]
        rfl

/-- Every out-edge of `node` witnesses the edge relation from `node`. -/
theorem outEdges_rel (g : Graph) (node : String) :
    ∀ e ∈ outEdges g node, edgeRelOf g node e.w := by
  intro e he
  unfold outEdges at he
  have heg : e ∈ g.edges := List.mem_of_mem_filter he
  have hbeq := (List.mem_filter.mp he).2
  exact ⟨e, heg, eq_of_beq hbeq, rfl⟩

/-- Soundness of the cycle DFS: starting from an invariant state whose
path can legitimately be extended by `node`, the DFS preserves the
invariant and restores the path and the recursion stack. -/
theorem dfsCyc_sound (g : Graph) :
    ∀ (fuel : Nat) (node : String) (st st2 : CycState),
      dfsCyc g fuel node st = some st2 →
      cycInvA g st →
      (st.path = [] ∨ ∃ l, st.path.getLast? = some l ∧ edgeRelOf g l node) →
      cycInvA g st2 ∧ st2.path = st.path ∧ st2.recStack = st.recStack := by
  intro fuel
  induction fuel with
  | zero => intro node st st2 h; cases h
  | succ n ih =>
    intro node st st2 h hinv hpre
    obtain ⟨hrs, hch, hcy⟩ := hinv
    rw [dfsCyc] at h
    by_cases hr : st.recStack.contains node = true
    · rw [if_pos hr] at h
      cases h
      have hmem : node ∈ st.path := by
        have hm2 : node ∈ st.recStack := List.mem_of_elem_eq_true hr
        rw [hrs] at hm2
        exact List.mem_reverse.mp hm2
      have hidx : st.path.indexOf node < st.path.length :=
        List.indexOf_lt_length.mpr hmem
      unfold recordCycle
      dsimp only
      rw [if_pos hidx]
      refine ⟨⟨hrs, hch, ?_⟩, rfl, rfl⟩
      intro c hc
      rcases List.mem_append.mp hc with hc1 | hc2
      · exact hcy c hc1
      · have hceq : c = st.path.drop (st.path.indexOf node) := by simpa using hc2
        subst hceq
        have hdnil : st.path.drop (st.path.indexOf node) ≠ [] := by
          intro hnil
          have hlen := congrArg List.length hnil
          rw [List.length_drop] at hlen
          simp only [List.length_nil] at hlen
          omega
        rcases hpre with hpe | ⟨l, hlast, hrel⟩
        · exact absurd hpe (List.ne_nil_of_mem hmem)
        refine ⟨hdnil, List.Chain'.drop hch _, node, l, ?_, ?_, hrel⟩
        · rw [List.head?_drop, List.getElem?_eq_getElem hidx]
          exact congrArg some (List.indexOf_get hidx)
        · have hsplit : (st.path.drop (st.path.indexOf node)).getLast?
              = st.path.getLast? := by
            conv_rhs => rw [← List.take_append_drop (st.path.indexOf node) st.path]
            rw [List.getLast?_append_of_ne_nil _ hdnil]
          rw [hsplit]
          exact hlast
    · rw [if_neg hr] at h
      by_cases hv : st.visited.contains node = true
      · rw [if_pos hv] at h
        cases h
        exact ⟨⟨hrs, hch, hcy⟩, rfl, rfl⟩
      · rw [if_neg hv] at h
        dsimp only at h
        have hrs1 : node :: st.recStack = (st.path ++ [node]).reverse := by
          rw [List.reverse_concat, hrs]
        have hch1 : List.Chain' (edgeRelOf g) (st.path ++ [node]) := by
          refine List.chain'_append.mpr ⟨hch, List.chain'_singleton _, ?_⟩
          intro x hx y hy
          have hy' : node = y := by simpa using hy
          subst hy'
          rcases hpre with hpe | ⟨l, hlast, hrel⟩
          · rw [hpe] at hx
            simp at hx
          · have hx' : l = x := by
              rw [hlast] at hx
              simpa using hx
            subst hx'
            exact hrel
        have hfold : ∀ (es : List Edge), (∀ e ∈ es, edgeRelOf g node e.w) →
            ∀ (s s2 : CycState), es.foldlM (fun s e => dfsCyc g n e.w s) s = some s2 →
            cycInvA g s → s.path = st.path ++ [node] →
            s.recStack = node :: st.recStack →
            cycInvA g s2 ∧ s2.path = st.path ++ [node] ∧
              s2.recStack = node :: st.recStack := by
          intro es
          induction es with
          | nil =>
            intro _ s s2 hh hi hp hr2
            cases hh
            exact ⟨hi, hp, hr2⟩
          | cons e t ihe =>
            intro hmem s s2 hh hi hp hr2
            rw [List.foldlM_cons] at hh
            cases hstep : dfsCyc g n e.w s with
            | none => rw [hstep] at hh; cases hh
            | some s1 =>
              rw [hstep] at hh
              simp only [Option.bind_eq_bind, Option.some_bind] at hh
              have hpre1 : s.path = [] ∨
                  ∃ l, s.path.getLast? = some l ∧ edgeRelOf g l e.w := by
                right
                refine ⟨node, ?_, hmem e (List.mem_cons_self e t)⟩
                rw [hp]
                exact List.getLast?_concat _
              obtain ⟨hi1, hp1, hr1⟩ := ih e.w s s1 hstep hi hpre1
              exact ihe (fun x hx => hmem x (List.mem_cons_of_mem e hx)) s1 s2 hh hi1
                (hp1.trans hp) (hr1.trans hr2)
        cases hres : (outEdges g node).foldlM (fun s e => dfsCyc g n e.w s)
            ⟨st.visited ++ [node], node :: st.recStack, st.path ++ [node],
              st.cycles⟩ with
        | none => rw [hres] at h; cases h
        | some sF =>
          rw [hres] at h
          cases h
          obtain ⟨⟨hrsF, hchF, hcyF⟩, hpF, hrF⟩ := hfold (outEdges g node)
            (outEdges_rel g node) _ sF hres ⟨hrs1.symm ▸ rfl, hch1, hcy⟩ rfl rfl
          refine ⟨⟨?_, ?_, ?_⟩, ?_, ?_⟩
          · show sF.recStack.erase node = sF.path.dropLast.reverse
            rw [hrF, hpF, List.erase_cons_head, List.dropLast_concat, hrs]
          · show List.Chain' (edgeRelOf g) sF.path.dropLast
            rw [hpF, List.dropLast_concat]
            exact hch
          · show ∀ c ∈ sF.cycles, cycleOK g c
            exact hcyF
          · show sF.path.dropLast = st.path
            rw [hpF, List.dropLast_concat]
          · show sF.recStack.erase node = st.recStack
            rw [hrF, List.erase_cons_head]

/-- Every cycle recorded by `findCyclesInGraph` is a genuine directed
cycle. -/
theorem cycRun_sound (g : Graph) :
    ∀ c ∈ findCyclesInGraph g, cycleOK g c := by
  have htop : ∀ (ns : List String) (st : CycState),
      cycInvA g st → st.path = [] →
      cycInvA g (ns.foldl (fun st n =>
          if st.visited.contains n then st
          else match dfsCyc g (cycFuel g) n st with
            | some st2 => st2
            | none => st) st) ∧
        (ns.foldl (fun st n =>
          if st.visited.contains n then st
          else match dfsCyc g (cycFuel g) n st with
            | some st2 => st2
            | none => st) st).path = [] := by
    intro ns
    induction ns with
    | nil => intro st hi hp; exact ⟨hi, hp⟩
    | cons m t iht =>
      intro st hi hp
      rw [List.foldl_cons]
      by_cases hv : st.visited.contains m = true
      · rw [if_pos hv]
        exact iht st hi hp
      · rw [if_neg hv]
        cases hres : dfsCyc g (cycFuel g) m st with
        | none => exact iht st hi hp
        | some st1 =>
          obtain ⟨hi1, hp1, _⟩ :=
            dfsCyc_sound g (cycFuel g) m st st1 hres hi (Or.inl hp)
          exact iht st1 hi1 (hp1.trans hp)
  intro c hc
  unfold findCyclesInGraph cycRun at hc
  have h0 : cycInvA g ({} : CycState) := by
    refine ⟨rfl, List.chain'_nil, ?_⟩
    intro c hc
    exact absurd hc (List.not_mem_nil c)
  obtain ⟨⟨_, _, hcyc⟩, _⟩ := htop (g.nodes.map Prod.fst) {} h0 rfl
  exact hcyc c hc

/-- Along an edge-chain, a ranking that increases along every edge is
monotone from the head to the last element. -/
theorem chain_f_le (g : Graph) (f : String → Nat)
    (hf : ∀ e ∈ g.edges, f e.v < f e.w) :
    ∀ (c : List String), List.Chain' (edgeRelOf g) c →
      ∀ a b, c.head? = some a → c.getLast? = some b → f a ≤ f b := by
  intro c
  induction c with
  | nil => intro _ a b ha; cases ha
  | cons x t iht =>
    intro hch a b ha hb
    have hax : x = a := by simpa using ha
    subst hax
    cases t with
    | nil =>
      have hbx : x = b := by simpa using hb
      subst hbx
      exact le_refl _
    | cons y u =>
      have hrel : edgeRelOf g x y := (List.chain'_cons.mp hch).1
      have hch2 : List.Chain' (edgeRelOf g) (y :: u) := (List.chain'_cons.mp hch).2
      have hb2 : (y :: u).getLast? = some b := by
        rw [← hb]
        exact (List.getLast?_cons_cons ..).symm
      have hle : f y ≤ f b := iht hch2 y b rfl hb2
      obtain ⟨e, he, hev, hew⟩ := hrel
      have hlt := hf e he
      rw [hev, hew] at hlt
      omega

/-- Completeness of the instrumented cycle DFS: when the call on `node`
records no new cycle, it preserves the completeness invariant, restores
the path and the recursion stack, only appends to the finish list, and
finishes `node`. -/
theorem dfsCycI_complete (g : Graph) :
    ∀ (fuel : Nat) (node : String) (st st2 : CycStateI),
      dfsCycI g fuel node st = some st2 →
      st2.cycles = st.cycles →
      cycInvB g st →
      cycInvB g st2 ∧ st2.path = st.path ∧ st2.recStack = st.recStack ∧
        (∃ t, st2.fin = st.fin ++ t) ∧ node ∈ st2.fin := by
  intro fuel
  induction fuel with
  | zero => intro node st st2 h; cases h
  | succ n ih =>
    intro node st st2 h hnc hinv
    obtain ⟨hnd, hcl, hvis, hrs, hdisj, hpnd⟩ := hinv
    rw [dfsCycI] at h
    by_cases hr : st.recStack.contains node = true
    · rw [if_pos hr] at h
      cases h
      exfalso
      have hmem : node ∈ st.path := by
        have hm2 : node ∈ st.recStack := List.mem_of_elem_eq_true hr
        rw [hrs] at hm2
        exact List.mem_reverse.mp hm2
      have hidx : st.path.indexOf node < st.path.length :=
        List.indexOf_lt_length.mpr hmem
      unfold recordCycleI at hnc
      dsimp only at hnc
      rw [if_pos hidx] at hnc
      have hlen := congrArg List.length hnc
      rw [List.length_append] at hlen
      simp at hlen
    · rw [if_neg hr] at h
      by_cases hv : st.visited.contains node = true
      · rw [if_pos hv] at h
        cases h
        have hmem : node ∈ st.visited := List.mem_of_elem_eq_true hv
        have hfin : node ∈ st.fin := by
          rcases (hvis node).mp hmem with hf | hp
          · exact hf
          · exfalso
            have hm2 : node ∈ st.recStack := by
              rw [hrs]
              exact List.mem_reverse.mpr hp
            exact hr (List.elem_eq_true_of_mem hm2)
        exact ⟨⟨hnd, hcl, hvis, hrs, hdisj, hpnd⟩, rfl, rfl, ⟨[], by simp⟩, hfin⟩
      · rw [if_neg hv] at h
        dsimp only at h
        have hnode_nvis : node ∉ st.visited :=
          fun hm => hv (List.elem_eq_true_of_mem hm)
        have hnode_nfin : node ∉ st.fin :=
          fun hm => hnode_nvis ((hvis node).mpr (Or.inl hm))
        have hnode_npath : node ∉ st.path :=
          fun hm => hnode_nvis ((hvis node).mpr (Or.inr hm))
        have hinv1 : cycInvB g ⟨st.visited ++ [node], node :: st.recStack,
            st.path ++ [node], st.cycles, st.fin⟩ := by
          refine ⟨hnd, hcl, ?_, ?_, ?_, ?_⟩
          · intro x
            constructor
            · intro hx
              rcases List.mem_append.mp hx with hx1 | hx2
              · rcases (hvis x).mp hx1 with hf | hp
                · exact Or.inl hf
                · exact Or.inr (List.mem_append_left _ hp)
              · exact Or.inr (List.mem_append_right _ hx2)
            · intro hx
              rcases hx with hf | hp
              · exact List.mem_append_left _ ((hvis x).mpr (Or.inl hf))
              · rcases List.mem_append.mp hp with hp1 | hp2
                · exact List.mem_append_left _ ((hvis x).mpr (Or.inr hp1))
                · exact List.mem_append_right _ hp2
          · show node :: st.recStack = (st.path ++ [node]).reverse
            rw [List.reverse_concat, hrs]
          · intro x hx hxp
            rcases List.mem_append.mp hxp with hp1 | hp2
            · exact hdisj x hx hp1
            · have hxn : x = node := by simpa using hp2
              rw [hxn] at hx
              exact hnode_nfin hx
          · show (st.path ++ [node]).Nodup
            refine List.nodup_append.mpr ⟨hpnd, List.nodup_singleton _, ?_⟩
            intro a ha hb
            have hab : a = node := by simpa using hb
            rw [hab] at ha
            exact hnode_npath ha
        have hfoldmono : ∀ (es : List Edge) (s s2 : CycStateI),
            es.foldlM (fun s e => dfsCycI g n e.w s) s = some s2 →
            ∃ t, s2.cycles = s.cycles ++ t := by
          intro es
          induction es with
          | nil => intro s s2 hh; cases hh; exact ⟨[], by simp⟩
          | cons e t ihe =>
            intro s s2 hh
            rw [List.foldlM_cons] at hh
            cases hstep : dfsCycI g n e.w s with
            | none => rw [hstep] at hh; cases hh
            | some s1 =>
              rw [hstep] at hh
              simp only [Option.bind_eq_bind, Option.some_bind] at hh
              obtain ⟨t1, ht1⟩ := (dfsCycI_mono g n e.w s s1 hstep).1
              obtain ⟨t2, ht2⟩ := ihe s1 s2 hh
              exact ⟨t1 ++ t2, by rw [ht2, ht1, List.append_assoc]⟩
        have hfold : ∀ (es : List Edge) (s s2 : CycStateI),
            es.foldlM (fun s e => dfsCycI g n e.w s) s = some s2 →
            s2.cycles = s.cycles →
            cycInvB g s →
            cycInvB g s2 ∧ s2.path = s.path ∧ s2.recStack = s.recStack ∧
              (∃ t, s2.fin = s.fin ++ t) ∧ ∀ e ∈ es, e.w ∈ s2.fin := by
          intro es
          induction es with
          | nil =>
            intro s s2 hh hnc2 hi
            cases hh
            exact ⟨hi, rfl, rfl, ⟨[], by simp⟩, by intro e he; cases he⟩
          | cons e t ihe =>
            intro s s2 hh hnc2 hi
            rw [List.foldlM_cons] at hh
            cases hstep : dfsCycI g n e.w s with
            | none => rw [hstep] at hh; cases hh
            | some s1 =>
              rw [hstep] at hh
              simp only [Option.bind_eq_bind, Option.some_bind] at hh
              obtain ⟨t1, ht1⟩ := (dfsCycI_mono g n e.w s s1 hstep).1
              obtain ⟨t2, ht2⟩ := hfoldmono t s1 s2 hh
              have hts : t1 ++ t2 = [] := by
                have hself : s.cycles = s.cycles ++ (t1 ++ t2) := by
                  conv_lhs => rw [← hnc2]
                  rw [ht2, ht1, List.append_assoc]
                exact List.append_right_eq_self.mp hself.symm
              have ht1e : t1 = [] := (List.append_eq_nil.mp hts).1
              have ht2e : t2 = [] := (List.append_eq_nil.mp hts).2
              have hnc1 : s1.cycles = s.cycles := by
                rw [ht1, ht1e, List.append_nil]
              have hncr : s2.cycles = s1.cycles := by
                rw [ht2, ht2e, List.append_nil]
              obtain ⟨hi1, hp1, hr1, ⟨u1, hf1⟩, hw1⟩ := ih e.w s s1 hstep hnc1 hi
              obtain ⟨hi2, hp2, hr2, ⟨u2, hf2⟩, hall⟩ := ihe s1 s2 hh hncr hi1
              refine ⟨hi2, hp2.trans hp1, hr2.trans hr1, ⟨u1 ++ u2, ?_⟩, ?_⟩
              · rw [hf2, hf1, List.append_assoc]
              · intro e2 he2
                rcases List.mem_cons.mp he2 with rfl | he2t
                · rw [hf2]
                  exact List.mem_append_left _ hw1
                · exact hall e2 he2t
        cases hres : (outEdges g node).foldlM (fun s e => dfsCycI g n e.w s)
            ⟨st.visited ++ [node], node :: st.recStack, st.path ++ [node],
              st.cycles, st.fin⟩ with
        | none => rw [hres] at h; cases h
        | some sF =>
          rw [hres] at h
          cases h
          have hncF : sF.cycles = st.cycles := hnc
          obtain ⟨hiF, hpF, hrF, ⟨uF, hfF⟩, hallF⟩ :=
            hfold (outEdges g node) _ sF hres hncF hinv1
          obtain ⟨hndF, hclF, hvisF, hrsF, hdisjF, hpndF⟩ := hiF
          have hpF' : sF.path = st.path ++ [node] := hpF
          have hrF' : sF.recStack = node :: st.recStack := hrF
          have hfF' : sF.fin = st.fin ++ uF := hfF
          have hnodeF : node ∉ sF.fin := by
            intro hm
            exact hdisjF node hm
              (by rw [hpF']
                  exact List.mem_append_right _ (List.mem_singleton.mpr rfl))
          have hp2 : sF.path.dropLast = st.path := by
            rw [hpF', List.dropLast_concat]
          have hr2 : sF.recStack.erase node = st.recStack := by
            rw [hrF', List.erase_cons_head]
          refine ⟨⟨?_, ?_, ?_, ?_, ?_, ?_⟩, hp2, hr2, ⟨uF ++ [node], ?_⟩, ?_⟩
          · show (sF.fin ++ [node]).Nodup
            refine List.nodup_append.mpr ⟨hndF, List.nodup_singleton _, ?_⟩
            intro a ha hb
            have hab : a = node := by simpa using hb
            rw [hab] at ha
            exact hnodeF ha
          · show ∀ a ∈ sF.fin ++ [node], ∀ e ∈ g.edges, e.v = a →
              e.w ∈ sF.fin ++ [node] ∧
                (sF.fin ++ [node]).indexOf e.w < (sF.fin ++ [node]).indexOf a
            intro a ha e he hev
            rcases List.mem_append.mp ha with haf | han
            · obtain ⟨hwf, hwi⟩ := hclF a haf e he hev
              refine ⟨List.mem_append_left _ hwf, ?_⟩
              rw [List.indexOf_append_of_mem hwf, List.indexOf_append_of_mem haf]
              exact hwi
            · have han' : a = node := by simpa using han
              subst han'
              have heo : e ∈ outEdges g a := by
                unfold outEdges
                refine List.mem_filter.mpr ⟨he, ?_⟩
                rw [hev]
                exact beq_self_eq_true a
              have hwf : e.w ∈ sF.fin := hallF e heo
              refine ⟨List.mem_append_left _ hwf, ?_⟩
              rw [List.indexOf_append_of_mem hwf,
                List.indexOf_append_of_not_mem hnodeF, List.indexOf_cons_self]
              have hwl : sF.fin.indexOf e.w < sF.fin.length :=
                List.indexOf_lt_length.mpr hwf
              omega
          · show ∀ x, x ∈ sF.visited ↔ x ∈ sF.fin ++ [node] ∨ x ∈ sF.path.dropLast
            simp only [hp2]
            intro x
            constructor
            · intro hm
              rcases (hvisF x).mp hm with hf | hp
              · exact Or.inl (List.mem_append_left _ hf)
              · rw [hpF'] at hp
                rcases List.mem_append.mp hp with hp1 | hp2'
                · exact Or.inr hp1
                · exact Or.inl (List.mem_append_right _ hp2')
            · intro hm
              rcases hm with hf | hp
              · rcases List.mem_append.mp hf with hf1 | hf2
                · exact (hvisF x).mpr (Or.inl hf1)
                · refine (hvisF x).mpr (Or.inr ?_)
                  rw [hpF']
                  exact List.mem_append_right _ hf2
              · refine (hvisF x).mpr (Or.inr ?_)
                rw [hpF']
                exact List.mem_append_left _ hp
          · show sF.recStack.erase node = sF.path.dropLast.reverse
            rw [hr2, hp2, hrs]
          · show ∀ x ∈ sF.fin ++ [node], x ∉ sF.path.dropLast
            simp only [hp2]
            intro x hx hxp
            rcases List.mem_append.mp hx with hf | hn2
            · refine hdisjF x hf ?_
              rw [hpF']
              exact List.mem_append_left _ hxp
            · have hxn : x = node := by simpa using hn2
              rw [hxn] at hxp
              exact hnode_npath hxp
          · show sF.path.dropLast.Nodup
            rw [hp2]
            exact hpnd
          · show sF.fin ++ [node] = st.fin ++ (uF ++ [node])
            rw [hfF', List.append_assoc]
          · show node ∈ sF.fin ++ [node]
            exact List.mem_append_right _ (List.mem_singleton.mpr rfl)

/-- A genuine directed cycle rules out any topological order. -/
theorem no_topo_of_cycle (g : Graph) (c : List String) (hc : cycleOK g c) :
    ¬ TopoOrder g := by
  rintro ⟨f, hf⟩
  obtain ⟨hne, hch, a, b, ha, hb, hrel⟩ := hc
  have hab : f a ≤ f b := chain_f_le g f hf c hch a b ha hb
  obtain ⟨e, he, hev, hew⟩ := hrel
  have hlt := hf e he
  rw [hev, hew] at hlt
  omega

/-- Completeness of the instrumented top-level run: when no cycle is
recorded overall, the final state satisfies the invariant, has an empty
path, and has every graph node on its finish list. -/
theorem cycRunI_complete (g : Graph) (hcyc : (cycRunI g).cycles = []) :
    cycInvB g (cycRunI g) ∧ (cycRunI g).path = [] ∧
      ∀ m ∈ g.nodes.map Prod.fst, m ∈ (cycRunI g).fin := by
  have htopmono : ∀ (ns : List String) (st : CycStateI),
      ∃ t, (ns.foldl (fun st n =>
          if st.visited.contains n then st
          else match dfsCycI g (cycFuel g) n st with
            | some st2 => st2
            | none => st) st).cycles = st.cycles ++ t := by
    intro ns
    induction ns with
    | nil => intro st; exact ⟨[], by simp⟩
    | cons m t iht =>
      intro st
      rw [List.foldl_cons]
      by_cases hv : st.visited.contains m = true
      · rw [if_pos hv]
        exact iht st
      · rw [if_neg hv]
        cases hres : dfsCycI g (cycFuel g) m st with
        | none => exact iht st
        | some st1 =>
          obtain ⟨t1, ht1⟩ := (dfsCycI_mono g (cycFuel g) m st st1 hres).1
          obtain ⟨t2, ht2⟩ := iht st1
          exact ⟨t1 ++ t2, by rw [ht2, ht1, List.append_assoc]⟩
  have htop : ∀ (ns : List String) (st : CycStateI),
      (∀ m ∈ ns, m ∈ cycUniverse g) →
      cycInvB g st → st.path = [] →
      (ns.foldl (fun st n =>
          if st.visited.contains n then st
          else match dfsCycI g (cycFuel g) n st with
            | some st2 => st2
            | none => st) st).cycles = st.cycles →
      cycInvB g (ns.foldl (fun st n =>
          if st.visited.contains n then st
          else match dfsCycI g (cycFuel g) n st with
            | some st2 => st2
            | none => st) st) ∧
        (ns.foldl (fun st n =>
          if st.visited.contains n then st
          else match dfsCycI g (cycFuel g) n st with
            | some st2 => st2
            | none => st) st).path = [] ∧
        (∃ t, (ns.foldl (fun st n =>
          if st.visited.contains n then st
          else match dfsCycI g (cycFuel g) n st with
            | some st2 => st2
            | none => st) st).fin = st.fin ++ t) ∧
        ∀ m ∈ ns, m ∈ (ns.foldl (fun st n =>
          if st.visited.contains n then st
          else match dfsCycI g (cycFuel g) n st with
            | some st2 => st2
            | none => st) st).fin := by
    intro ns
    induction ns with
    | nil =>
      intro st _ hi hp _
      exact ⟨hi, hp, ⟨[], by simp⟩, by intro m hm; cases hm⟩
    | cons m t iht =>
      intro st hmem hi hp hfc
      rw [List.foldl_cons] at hfc ⊢
      by_cases hv : st.visited.contains m = true
      · rw [if_pos hv] at hfc ⊢
        obtain ⟨hi2, hp2, ⟨u2, hf2⟩, hall2⟩ :=
          iht st (fun x hx => hmem x (List.mem_cons_of_mem m hx)) hi hp hfc
        refine ⟨hi2, hp2, ⟨u2, hf2⟩, ?_⟩
        intro x hx
        rcases List.mem_cons.mp hx with rfl | hxt
        · have hmv : x ∈ st.visited := List.mem_of_elem_eq_true hv
          rcases (hi.2.2.1 x).mp hmv with hf | hpp
          · rw [hf2]
            exact List.mem_append_left _ hf
          · rw [hp] at hpp
            cases hpp
        · exact hall2 x hxt
      · rw [if_neg hv] at hfc ⊢
        cases hres : dfsCycI g (cycFuel g) m st with
        | none =>
          exfalso
          have hsome := dfsCycI_isSome g (cycFuel g) m st
            (hmem m (List.mem_cons_self m t))
            (by
              have hle : unvisCount g st.visited ≤ (cycUniverse g).length :=
                List.length_filter_le _ _
              unfold cycFuel
              omega)
          rw [hres] at hsome
          cases hsome
        | some st1 =>
          rw [hres] at hfc
          obtain ⟨t2, ht2⟩ := htopmono t st1
          obtain ⟨t1, ht1⟩ := (dfsCycI_mono g (cycFuel g) m st st1 hres).1
          have hts : t1 ++ t2 = [] := by
            have hself : st.cycles = st.cycles ++ (t1 ++ t2) := by
              conv_lhs => rw [← hfc]
              rw [ht2, ht1, List.append_assoc]
            exact List.append_right_eq_self.mp hself.symm
          have ht1e : t1 = [] := (List.append_eq_nil.mp hts).1
          have ht2e : t2 = [] := (List.append_eq_nil.mp hts).2
          have hnc1 : st1.cycles = st.cycles := by
            rw [ht1, ht1e, List.append_nil]
          have hncr := hfc.trans hnc1.symm
          obtain ⟨hi1, hp1, _, ⟨u1, hf1⟩, hmfin⟩ :=
            dfsCycI_complete g (cycFuel g) m st st1 hres hnc1 hi
          obtain ⟨hi2, hp2, ⟨u2, hf2⟩, hall2⟩ :=
            iht st1 (fun x hx => hmem x (List.mem_cons_of_mem m hx)) hi1
              (hp1.trans hp) hncr
          refine ⟨hi2, hp2, ⟨u1 ++ u2, ?_⟩, ?_⟩
          · rw [hf2, hf1, List.append_assoc]
          · intro x hx
            rcases List.mem_cons.mp hx with rfl | hxt
            · rw [hf2]
              exact List.mem_append_left _ hmfin
            · exact hall2 x hxt
  have h0 : cycInvB g ({} : CycStateI) := by
    refine ⟨List.nodup_nil, ?_, ?_, rfl, ?_, List.nodup_nil⟩
    · intro a ha
      cases ha
    · intro x
      constructor
      · intro hx
        cases hx
      · intro hx
        rcases hx with hx | hx <;> cases hx
    · intro x hx
      cases hx
  have hall0 : ∀ m ∈ g.nodes.map Prod.fst, m ∈ cycUniverse g := by
    intro m hm
    exact List.mem_append_left _ hm
  unfold cycRunI at hcyc ⊢
  obtain ⟨hi2, hp2, _, hall2⟩ := htop (g.nodes.map Prod.fst) {} hall0 h0 rfl hcyc
  exact ⟨hi2, hp2, hall2⟩

/-- **C5** (confirmed).  For every well-formed graph (edge endpoints are
node keys, as graphlib guarantees) with a non-empty edge set,
`detectCycles` reports no cycles iff the graph's edges admit a
topological order. -/
theorem c5_detect_cycles_iff_topo (lang : String) (g : Graph)
    (hwf : edgesClosed g) (hne : g.edges ≠ []) :
    detectCycles [(lang, g)] = [] ↔ TopoOrder g := by
  have hbridge : detectCycles [(lang, g)] = [] ↔ findCyclesInGraph g = [] := by
    unfold detectCycles
    simp
  rw [hbridge]
  constructor
  · intro hempty
    have hcycI : (cycRunI g).cycles = [] := by
      rw [cycRunI_cycles]
      exact hempty
    obtain ⟨⟨hnd, hcl, hvis, hrs, hdisj, hpnd⟩, hpath, hall⟩ :=
      cycRunI_complete g hcycI
    refine ⟨fun u => (cycRunI g).fin.length - (cycRunI g).fin.indexOf u, ?_⟩
    intro e he
    have hv : e.v ∈ (cycRunI g).fin := hall e.v ((hwf e he).1)
    obtain ⟨hw, hlt⟩ := hcl e.v hv e he rfl
    have hvl : (cycRunI g).fin.indexOf e.v < (cycRunI g).fin.length :=
      List.indexOf_lt_length.mpr hv
    show (cycRunI g).fin.length - (cycRunI g).fin.indexOf e.v <
      (cycRunI g).fin.length - (cycRunI g).fin.indexOf e.w
    omega
  · intro htopo
    by_contra hne2
    obtain ⟨c, hc⟩ := List.exists_mem_of_ne_nil _ hne2
    exact no_topo_of_cycle g c (cycRun_sound g c hc) htopo

/-- **C5** witness: the scenario-S1 graph (`a.js → b.js`) is well-formed
with a non-empty edge set and admits a topological order, so the theorem
yields that `detectCycles` reports no cycles on it. -/
theorem c5_witness :
    detectCycles [("javascript", parseJsonGraphMadge exMadgeS1)] = [] :=
  (c5_detect_cycles_iff_topo "javascript" (parseJsonGraphMadge exMadgeS1)
    (by unfold edgesClosed; decide) (by decide)).mpr
    ⟨fun u => if u = "b.js" then 1 else 0, by decide⟩

end CCG
